import Mathlib

/-!
Verification of the FlowPilot diagram pipeline.

Text is modelled as `List Char` (one element per Unicode code point, matching
the Python `str` type code-point for code-point).  The functions below are
shallow embeddings of the functions in `backend/diagram_generator.py` and
`backend/agents.py`.
-/

set_option autoImplicit false

abbrev Str := List Char

/-- The explicit line-break marker `<br/>` used by the synthesizer. -/
def brChars : Str := ['<', 'b', 'r', '/', '>']

/-- Boolean substring test: `containsSeq pat s` holds iff `pat` occurs
contiguously inside `s` (the semantics of the Python `in` operator). -/
def containsSeq (pat : Str) : Str → Bool
  | [] => decide (pat = [])
  | c :: rest => pat.isPrefixOf (c :: rest) || containsSeq pat rest

/-- Fuel-driven worker for `splitOnBr`; the fuel is an upper bound on the
length of the remaining text, so the `0` case is never hit when called
through `splitOnBr`. -/
def splitOnBrAux : Nat → Str → List Str
  | 0, l => [l]
  | fuel + 1, l =>
    match l with
    | [] => [[]]
    | c :: rest =>
      if brChars.isPrefixOf (c :: rest) then
        [] :: splitOnBrAux fuel ((c :: rest).drop 5)
      else
        match splitOnBrAux fuel rest with
        | [] => [[c]]
        | seg :: segs => (c :: seg) :: segs

/-- Embedding of the Python expression `text.split(litBr)` where `litBr` is
the five-character marker `<br/>`: leftmost, non-overlapping splitting. -/
def splitOnBr (l : Str) : List Str := splitOnBrAux l.length l

/-- Embedding of `sep.join(parts)` for a list separator. -/
def joinSep (sep : Str) : List Str → Str
  | [] => []
  | [s] => s
  | s :: ss => s ++ sep ++ joinSep sep ss

/-- Fuel-driven worker for `chunks`. -/
def chunksAux (k : Nat) : Nat → Str → List Str
  | 0, _ => []
  | fuel + 1, l => if l = [] then [] else l.take k :: chunksAux k fuel (l.drop k)

/-- Embedding of the Python comprehension
`[line[i:i+max_chars] for i in range(0, len(line), max_chars)]`
for a positive step `k`: consecutive chunks of `k` characters. -/
def chunks (k : Nat) (l : Str) : List Str := chunksAux k l.length l

/-- Embedding of `wrap_text_with_br` from `backend/diagram_generator.py`:
split on existing `<br/>` markers, chunk every segment longer than
`max_chars` into `max_chars`-sized character chunks, keep the rest, and
re-join with the marker. -/
def wrap_text_with_br (text : Str) (max_chars : Nat) : Str :=
  joinSep brChars
    ((splitOnBr text).flatMap fun line =>
      if max_chars < line.length then chunks max_chars line else [line])


/-- Embedding of the Python expression `s.replace(pat, rep)` for a
single-character pattern `pat`: every occurrence of the character is
replaced, left to right, in one pass. -/
def pyReplace (pat : Char) (rep : Str) (s : Str) : Str :=
  s.flatMap fun a => if a = pat then rep else [a]

/-- Embedding of the escaping chain applied to a node label in
`generate_mermaid_diagram` (backslash first, then the six bracket
characters, then the angle brackets, then raw newlines). -/
def escapeLabel (label : Str) : Str :=
  let l1 := pyReplace '\\' ['\\', '\\'] label
  let l2 := pyReplace '[' ['\\', '['] l1
  let l3 := pyReplace ']' ['\\', ']'] l2
  let l4 := pyReplace '{' ['\\', '{'] l3
  let l5 := pyReplace '}' ['\\', '}'] l4
  let l6 := pyReplace '(' ['\\', '('] l5
  let l7 := pyReplace ')' ['\\', ')'] l6
  let l8 := pyReplace '<' ['&', 'l', 't', ';'] l7
  let l9 := pyReplace '>' ['&', 'g', 't', ';'] l8
  pyReplace '\n' brChars l9

/-- Input node record: the keys of a node dictionary that the generator and
the layout read (`id`, `data.label`, and the optional `shape` key;
`node.get` supplies the `rectangle` default when `shape` is absent). -/
structure NodeIn where
  id : Str
  label : Str
  shape : Option Str
  deriving DecidableEq

/-- Input edge record: the generator and the layout only read the `source`
and `target` keys of an edge dictionary. -/
structure EdgeIn where
  source : Str
  target : Str
  deriving DecidableEq

/-- The shape of a node, with the `rectangle` default of `node.get`. -/
def nodeShape (n : NodeIn) : Str := n.shape.getD "rectangle".toList

def MAX_CHARS_PER_LINE : Nat := 15

/-- The apostrophe character (code point 39). -/
def apos : Char := Char.ofNat 39

/-- The fixed prefix `<div style='padding: 5px;'>` wrapped around labels. -/
def divOpen : Str :=
  "<div style=".toList ++ [apos] ++ "padding: 5px;".toList ++ [apos] ++ ['>']

/-- The fixed suffix `</div>` wrapped around labels. -/
def divClose : Str := "</div>".toList

/-- One node-declaration line of the synthesized Mermaid text. -/
def nodeLine (n : NodeIn) : Str :=
  let lbl := escapeLabel (wrap_text_with_br n.label MAX_CHARS_PER_LINE)
  if nodeShape n = "diamond".toList then
    "    ".toList ++ n.id ++ ['{', '"'] ++ divOpen ++ lbl ++ divClose ++ ['"', '}'] ++ ['\n']
  else
    "    ".toList ++ n.id ++ ['[', '"'] ++ divOpen ++ lbl ++ divClose ++ ['"', ']'] ++ ['\n']

/-- One connector line of the synthesized Mermaid text. -/
def edgeLine (e : EdgeIn) : Str :=
  "    ".toList ++ e.source ++ " --> ".toList ++ e.target ++ ['\n']

/-- Embedding of `generate_mermaid_diagram` from
`backend/diagram_generator.py`: the header, one line per node, then one
line per edge. -/
def generate_mermaid_diagram (nodes : List NodeIn) (edges : List EdgeIn) : Str :=
  "graph TD\n".toList ++ nodes.flatMap nodeLine ++ edges.flatMap edgeLine

/-- The default whitespace set of the Python `str.strip` method
(the Unicode code points for which `str.isspace` holds). -/
def pyIsSpace (c : Char) : Bool :=
  [9, 10, 11, 12, 13, 28, 29, 30, 31, 32, 133, 160, 5760,
   8192, 8193, 8194, 8195, 8196, 8197, 8198, 8199, 8200, 8201, 8202,
   8232, 8233, 8239, 8287, 12288].contains c.toNat

/-- The line boundaries recognized by the Python `str.splitlines` method
(with the carriage-return / line-feed pair handled in `splitlinesGo`). -/
def isLineBreakChar (c : Char) : Bool :=
  [10, 11, 12, 13, 28, 29, 30, 133, 8232, 8233].contains c.toNat

/-- Embedding of `s.lstrip()`. -/
def lstrip (s : Str) : Str := s.dropWhile pyIsSpace

/-- Embedding of `s.rstrip()`. -/
def rstrip (s : Str) : Str := (s.reverse.dropWhile pyIsSpace).reverse

/-- Embedding of `s.strip()`. -/
def pystrip (s : Str) : Str := rstrip (lstrip s)

/-- Worker for `pySplitlines`: cut at every line boundary, treating a
carriage return followed by a line feed as a single boundary. -/
def splitlinesGo : Str → List Str
  | [] => [[]]
  | '\r' :: '\n' :: rest => [] :: splitlinesGo rest
  | c :: rest =>
    if isLineBreakChar c then [] :: splitlinesGo rest
    else
      match splitlinesGo rest with
      | [] => [[c]]
      | seg :: segs => (c :: seg) :: segs

/-- Embedding of `s.splitlines()`: no trailing empty line is produced for a
string that ends with a line boundary, and the empty string gives `[]`. -/
def pySplitlines (s : Str) : List Str :=
  if s = [] then []
  else
    let parts := splitlinesGo s
    if parts.getLast? = some [] then parts.dropLast else parts

/-- Embedding of `is_valid_mermaid_syntax` from `backend/agents.py`
(the trailing `_syntax` of the Python name is dropped here): non-empty,
first stripped line starts with `graph TD`, and some later line contains
a bracket or a dash-dash marker. -/
def is_valid_mermaid (s : Str) : Bool :=
  if s = [] then false
  else
    match pySplitlines (pystrip s) with
    | [] => false
    | first :: rest =>
      "graph TD".toList.isPrefixOf (pystrip first) &&
      rest.any fun line =>
        containsSeq ['['] line || containsSeq [']'] line ||
        containsSeq ['-', '-'] line || containsSeq ['-', '-', '>'] line

/-- Embedding of the fallback at the end of `run_crew` in
`backend/agents.py`: when the externally obtained text fails the validity
check, the result is re-synthesized from the same nodes and edges, and
returned unconditionally. -/
def fallbackMermaid (ext : Str) (nodes : List NodeIn) (edges : List EdgeIn) : Str :=
  if is_valid_mermaid ext then ext else generate_mermaid_diagram nodes edges

/-- The six bracket characters escaped by the generator. -/
def isBracketChar (c : Char) : Bool :=
  c = '[' || c = ']' || c = '{' || c = '}' || c = '(' || c = ')'

/-- Scanner deciding whether a text contains a bracket character that is
not consumed by a preceding backslash (scanning left to right, a backslash
always escapes the character after it). -/
def hasUnescapedBracket : Str → Bool
  | [] => false
  | c :: rest =>
    if c = '\\' then
      match rest with
      | [] => false
      | _ :: rest2 => hasUnescapedBracket rest2
    else isBracketChar c || hasUnescapedBracket rest

/-- Scanner deciding whether a text contains an angle bracket outside an
occurrence of the `<br/>` line-break marker. -/
def hasStrayAngle : Str → Bool
  | [] => false
  | c :: rest =>
    if c = '>' then true
    else if c = '<' then
      match rest with
      | 'b' :: 'r' :: '/' :: '>' :: rest2 => hasStrayAngle rest2
      | _ => true
    else hasStrayAngle rest


/-- Append an element to a list unless it is already present (the effect of
adding a node or an edge to a `networkx` graph that may already have it). -/
def addIfAbsent {α : Type} [DecidableEq α] (l : List α) (x : α) : List α :=
  if x ∈ l then l else l ++ [x]

/-- The directed graph built at the start of `layout_graph`: node
identifiers in insertion order and directed edges in insertion order, both
de-duplicated (`add_edge` also inserts missing endpoints as nodes). -/
structure Graph where
  nodeIds : List Str
  pairs : List (Str × Str)

/-- Embedding of the `nx.DiGraph` construction loop of `layout_graph`. -/
def buildGraph (nodes : List NodeIn) (edges : List EdgeIn) : Graph :=
  let ids0 := nodes.foldl (fun acc n => addIfAbsent acc n.id) []
  let st := edges.foldl
    (fun (acc : List Str × List (Str × Str)) e =>
      (addIfAbsent (addIfAbsent acc.1 e.source) e.target,
       addIfAbsent acc.2 (e.source, e.target)))
    (ids0, [])
  ⟨st.1, st.2⟩

/-- The successors of a node, in edge-insertion order (`G.successors`). -/
def succsOf (g : Graph) (u : Str) : List Str :=
  (g.pairs.filter fun p => decide (p.1 = u)).map Prod.snd

/-- The in-degree of a node (`G.in_degree`). -/
def inDegree (g : Graph) (v : Str) : Nat :=
  (g.pairs.filter fun p => decide (p.2 = v)).length

/-- The zero-in-degree nodes, in node order (the `sources` list). -/
def sourcesOf (g : Graph) : List Str :=
  g.nodeIds.filter fun v => decide (inDegree g v = 0)

/-- State of the rank-assignment loop of `layout_graph`: the BFS queue of
pending `(node, rank)` entries, the visited set, and the rank dictionary. -/
structure BfsState where
  queue : List (Str × Int)
  visited : List Str
  ranks : List (Str × Int)

/-- Embedding of `ranks[v] = max(ranks[v], r)` on the rank dictionary. -/
def updateRank (v : Str) (r : Int) (ranks : List (Str × Int)) : List (Str × Int) :=
  ranks.map fun p => if p.1 = v then (p.1, max p.2 r) else p

/-- Embedding of the `for successor in G.successors(current_node)` body:
unvisited successors are marked visited and enqueued one rank deeper,
visited successors have their rank max-merged. -/
def processSuccs (succs : List Str) (r : Int) (st : BfsState) : BfsState :=
  succs.foldl
    (fun st s =>
      if s ∈ st.visited then
        { queue := st.queue, visited := st.visited, ranks := updateRank s (r + 1) st.ranks }
      else
        { queue := st.queue ++ [(s, r + 1)], visited := s :: st.visited, ranks := st.ranks })
    st

/-- One iteration of the `while queue` loop: pop the head entry, max-merge
its rank, and process its successors. -/
def bfsStep (g : Graph) (st : BfsState) : BfsState :=
  match st.queue with
  | [] => st
  | (u, r) :: rest =>
    processSuccs (succsOf g u) r
      { queue := rest, visited := st.visited, ranks := updateRank u r st.ranks }

/-- Fuel-driven iteration of `bfsStep` until the queue drains; with fuel at
least `3 *` the node count the queue provably drains, so this is the
`while` loop of `layout_graph`. -/
def bfsRun (g : Graph) : Nat → BfsState → BfsState
  | 0, st => st
  | fuel + 1, st => if st.queue = [] then st else bfsRun g fuel (bfsStep g st)

/-- The initial BFS state: every node rank `0`, the zero-in-degree nodes
queued at rank `0` and already visited. -/
def initState (g : Graph) : BfsState :=
  { queue := (sourcesOf g).map fun v => (v, 0)
  , visited := sourcesOf g
  , ranks := g.nodeIds.map fun v => (v, 0) }

/-- The final rank dictionary computed by `layout_graph` (steps 1 of the
function): association list from node identifier to rank. -/
def layoutRanks (nodes : List NodeIn) (edges : List EdgeIn) : List (Str × Int) :=
  let g := buildGraph nodes edges
  (bfsRun g (3 * g.nodeIds.length) (initState g)).ranks

def DEFAULT_CHAR_WIDTH_ESTIMATE : ℚ := 25
def DEFAULT_LINE_HEIGHT_ESTIMATE : ℚ := 40
def DEFAULT_VIEWBOX_WIDTH : ℚ := 1200
def PADDING_WIDTH : ℚ := 150
def PADDING_HEIGHT : ℚ := 80

/-- The float safety factor `1.2`, modelled as the rational `6 / 5`. -/
def SAFETY_FACTOR_WIDTH : ℚ := 6 / 5

/-- The float safety factor `1.2`, modelled as the rational `6 / 5`. -/
def SAFETY_FACTOR_HEIGHT : ℚ := 6 / 5

def x_spacing : ℚ := 50
def y_spacing : ℚ := 100

/-- The running maximum `current_node_text_width` computed per node. -/
def textWidthOf (label : Str) : ℚ :=
  (splitOnBr label).foldl
    (fun acc line => max acc ((line.length : ℚ) * DEFAULT_CHAR_WIDTH_ESTIMATE)) 0

/-- `node_calculated_width` of `layout_graph`. -/
def calcWidth (label : Str) : ℚ :=
  (textWidthOf label + PADDING_WIDTH) * SAFETY_FACTOR_WIDTH

/-- `node_calculated_height` of `layout_graph`. -/
def calcHeight (label : Str) : ℚ :=
  (((splitOnBr label).length : ℚ) * DEFAULT_LINE_HEIGHT_ESTIMATE + PADDING_HEIGHT)
    * SAFETY_FACTOR_HEIGHT

/-- The `position` value stored into a node dictionary. -/
structure Pos where
  x : ℚ
  y : ℚ
  width : ℚ
  height : ℚ
  deriving DecidableEq

/-- A node dictionary after `layout_graph` ran: the input keys plus
`calculated_width` and `calculated_height`, and the `position` key when the
position loop assigned one (`none` models an absent `position` key). -/
structure NodeOut where
  id : Str
  label : Str
  shape : Option Str
  calculated_width : ℚ
  calculated_height : ℚ
  position : Option Pos
  deriving DecidableEq

/-- The per-node dimension pass of `layout_graph` (no position yet). -/
def withDims (n : NodeIn) : NodeOut :=
  { id := n.id, label := n.label, shape := n.shape
  , calculated_width := calcWidth n.label
  , calculated_height := calcHeight n.label
  , position := none }

/-- Embedding of `next((n for n in nodes if n["id"] == v), None)`. -/
def findNode (nodes : List NodeOut) (v : Str) : Option NodeOut :=
  nodes.find? fun n => decide (n.id = v)

/-- Embedding of `next((n["calculated_width"] for n in nodes if ...), 0)`. -/
def widthOfId (nodes : List NodeOut) (v : Str) : ℚ :=
  ((findNode nodes v).map NodeOut.calculated_width).getD 0

/-- Embedding of `next((n["calculated_height"] for n in nodes if ...), 0)`. -/
def heightOfId (nodes : List NodeOut) (v : Str) : ℚ :=
  ((findNode nodes v).map NodeOut.calculated_height).getD 0

/-- Embedding of the Python `max(...)` over a non-empty rank group (the
empty case never arises and yields the junk value `0`). -/
def maxHeightIn (nodes : List NodeOut) (group : List Str) : ℚ :=
  match group with
  | [] => 0
  | v :: vs => vs.foldl (fun acc u => max acc (heightOfId nodes u)) (heightOfId nodes v)

/-- `current_rank_total_width` of a rank group. -/
def groupTotalWidth (nodes : List NodeOut) (group : List Str) : ℚ :=
  (group.map (widthOfId nodes)).sum + ((group.length : ℚ) - 1) * x_spacing

/-- Lexicographic (code-point) strict comparison of strings, as used by the
Python list sort on node identifiers. -/
def strLtB : Str → Str → Bool
  | [], [] => false
  | [], _ :: _ => true
  | _ :: _, [] => false
  | a :: as, b :: bs => if a < b then true else if b < a then false else strLtB as bs

/-- The node identifiers of one rank, in rank-dictionary order. -/
def rankGroup (ranks : List (Str × Int)) (r : Int) : List Str :=
  (ranks.filter fun p => decide (p.2 = r)).map Prod.fst

/-- The distinct values of the rank dictionary, in first-appearance order. -/
def rankValues (ranks : List (Str × Int)) : List Int :=
  (ranks.map Prod.snd).foldl addIfAbsent []

/-- `sorted_ranks`: the distinct rank values in increasing order. -/
def sortedRankKeys (ranks : List (Str × Int)) : List Int :=
  (rankValues ranks).insertionSort (fun a b => a ≤ b)

/-- The position entries produced while processing one rank group, in
processing order; identifiers absent from the node list are skipped. -/
def groupEntries (nodes : List NodeOut) (r : Int) (group : List Str) : List (Str × Pos) :=
  let total := groupTotalWidth nodes group
  let startX := if total < DEFAULT_VIEWBOX_WIDTH then (DEFAULT_VIEWBOX_WIDTH - total) / 2 else 0
  let y := (r : ℚ) * (maxHeightIn nodes group + y_spacing) + 5
  (group.foldl
    (fun (acc : ℚ × List (Str × Pos)) v =>
      match findNode nodes v with
      | none => acc
      | some n =>
        (acc.1 + n.calculated_width + x_spacing,
         acc.2 ++ [(v, ⟨acc.1, y, n.calculated_width, n.calculated_height⟩)]))
    (startX, [])).2

/-- All position entries of the position loop, rank layer by rank layer,
each group sorted by identifier. -/
def positionEntries (nodes : List NodeOut) (ranks : List (Str × Int)) : List (Str × Pos) :=
  (sortedRankKeys ranks).flatMap fun r =>
    groupEntries nodes r ((rankGroup ranks r).insertionSort fun a b => !(strLtB b a))

/-- Write the computed positions back into the node dictionaries: the
position loop mutates the first dictionary carrying each identifier, so a
later duplicate keeps no position. -/
def attachPositions (entries : List (Str × Pos)) : List Str → List NodeOut → List NodeOut
  | _, [] => []
  | seen, n :: rest =>
    { n with position := if n.id ∈ seen then none else entries.lookup n.id } ::
      attachPositions entries (n.id :: seen) rest

/-- Embedding of `layout_graph` from `backend/diagram_generator.py`: the
mutated node list and the final `max_y` value. -/
def layout_graph (nodes : List NodeIn) (edges : List EdgeIn) : List NodeOut × ℚ :=
  let ranks := layoutRanks nodes edges
  let nodes1 := nodes.map withDims
  let out := attachPositions (positionEntries nodes1 ranks) [] nodes1
  let maxY := out.foldl
    (fun m n =>
      match n.position with
      | some p => if m < p.y + p.height then p.y + p.height else m
      | none => m) 0
  (out, maxY + y_spacing)

/-- Scenario A node list from the specification. -/
def scenarioNodes : List NodeIn :=
  [ { id := ['1'], label := "Start".toList, shape := some "rectangle".toList }
  , { id := ['2'], label := "Check Condition".toList, shape := some "diamond".toList } ]

/-- Scenario A edge list from the specification. -/
def scenarioEdges : List EdgeIn := [{ source := ['1'], target := ['2'] }]


/-- The number of graph nodes not yet visited by the BFS. -/
def unvisitedCount (g : Graph) (vis : List Str) : Nat :=
  (g.nodeIds.filter fun v => decide (¬ v ∈ vis)).length

/-- Termination measure of the BFS loop: it strictly decreases at every
iteration, so `bfsRun` with fuel `3 * |nodes|` drains the queue. -/
def bfsMeasure (g : Graph) (st : BfsState) : Nat :=
  2 * unvisitedCount g st.visited + st.queue.length

/-- Well-formedness of the built graph: distinct node identifiers and
edges between known identifiers (guaranteed by `buildGraph`). -/
def WfGraph (g : Graph) : Prop :=
  g.nodeIds.Nodup ∧ ∀ p ∈ g.pairs, p.1 ∈ g.nodeIds ∧ p.2 ∈ g.nodeIds

/-- Reachability from some zero-in-degree node along directed edges. -/
inductive Reaches (g : Graph) : Str → Prop
  | source (v : Str) : v ∈ sourcesOf g → Reaches g v
  | succ (u v : Str) : Reaches g u → v ∈ succsOf g u → Reaches g v

/-- A node with no incident edge at all. -/
def isolatedIn (g : Graph) (v : Str) : Prop :=
  inDegree g v = 0 ∧ succsOf g v = []

/-- The rank of a node in a rank dictionary, with junk default `0`. -/
def rankOf (ranks : List (Str × Int)) (v : Str) : Int :=
  (ranks.lookup v).getD 0

/-- One diamond-shaped node whose label carries no bracket characters. -/
def diamondOnlyNodes : List NodeIn :=
  [{ id := ['1'], label := ['X'], shape := some "diamond".toList }]

/-- Two node dictionaries sharing the identifier `1`. -/
def dupNodes : List NodeIn :=
  [ { id := ['1'], label := ['A'], shape := none }
  , { id := ['1'], label := ['B'], shape := none } ]

/-- One edge whose target identifier appears in no node dictionary. -/
def danglingEdges : List EdgeIn := [{ source := ['1'], target := ['z'] }]

/-- A 20-character label with no pre-existing line-break marker: longer
than MAX_CHARS_PER_LINE, so wrapping would split it, but the layout
sizing pass reads the raw label. -/
def longLabel : Str := "abcdefghijklmnopqrst".toList

/-- One node carrying the 20-character label. -/
def longLabelNodes : List NodeIn :=
  [{ id := ['1'], label := longLabel, shape := none }]

/-! ### Substring and splitting lemmas -/

theorem containsSeq_iff_mid (pat : Str) (l : Str) :
    containsSeq pat l = true ↔ pat <:+: l := by
  induction l with
  | nil =>
    simp [containsSeq, List.infix_nil]
  | cons c rest ih =>
    simp [containsSeq, List.infix_cons_iff, ih, List.isPrefixOf_iff_prefix]

theorem containsSeq_eq_false_of_mid (pat l x : Str)
    (h : containsSeq pat l = false) (hx : x <:+: l) :
    containsSeq pat x = false := by
  by_contra hne
  have hx2 : containsSeq pat x = true := by
    cases hcx : containsSeq pat x with
    | true => rfl
    | false => exact absurd hcx hne
  have : pat <:+: l := ((containsSeq_iff_mid pat x).mp hx2).trans hx
  rw [← containsSeq_iff_mid pat l] at this
  rw [h] at this
  exact Bool.false_ne_true this

theorem splitOnBrAux_congr (k1 k2 : Nat) :
    ∀ (l : Str), l.length ≤ k1 → l.length ≤ k2 →
      splitOnBrAux k1 l = splitOnBrAux k2 l := by
  induction k1 generalizing k2 with
  | zero =>
    intro l h1 _
    have hl : l = [] := List.eq_nil_of_length_eq_zero (Nat.le_zero.mp h1)
    subst hl
    cases k2 <;> rfl
  | succ k1 ih =>
    intro l h1 h2
    cases l with
    | nil => cases k2 <;> rfl
    | cons c rest =>
      cases k2 with
      | zero => simp at h2
      | succ k2 =>
        simp only [splitOnBrAux]
        by_cases hp : brChars.isPrefixOf (c :: rest) = true
        · rw [if_pos hp, if_pos hp]
          have hlen : ((c :: rest).drop 5).length ≤ k1 := by
            simp only [List.length_drop, List.length_cons]
            simp only [List.length_cons] at h1
            omega
          have hlen2 : ((c :: rest).drop 5).length ≤ k2 := by
            simp only [List.length_drop, List.length_cons]
            simp only [List.length_cons] at h2
            omega
          rw [ih k2 _ hlen hlen2]
        · rw [if_neg hp, if_neg hp]
          have hr1 : rest.length ≤ k1 := by
            simp only [List.length_cons] at h1; omega
          have hr2 : rest.length ≤ k2 := by
            simp only [List.length_cons] at h2; omega
          rw [ih k2 rest hr1 hr2]

theorem splitOnBr_eq_aux (fuel : Nat) (l : Str) (h : l.length ≤ fuel) :
    splitOnBr l = splitOnBrAux fuel l :=
  splitOnBrAux_congr l.length fuel l (Nat.le_refl _) h

theorem splitOnBr_nil : splitOnBr [] = [[]] := rfl

theorem splitOnBr_marker (l : Str) (hp : brChars.isPrefixOf l = true) :
    splitOnBr l = [] :: splitOnBr (l.drop 5) := by
  cases l with
  | nil => simp [brChars, List.isPrefixOf_iff_prefix] at hp
  | cons c rest =>
    show splitOnBrAux (c :: rest).length (c :: rest) = _
    simp only [List.length_cons, splitOnBrAux, if_pos hp]
    have : ((c :: rest).drop 5).length ≤ rest.length := by
      simp only [List.length_drop, List.length_cons]; omega
    rw [← splitOnBr_eq_aux rest.length _ this]

theorem splitOnBr_cons_no_marker (c : Char) (rest : Str)
    (hp : ¬ brChars.isPrefixOf (c :: rest) = true) :
    splitOnBr (c :: rest) =
      match splitOnBr rest with
      | [] => [[c]]
      | seg :: segs => (c :: seg) :: segs := by
  show splitOnBrAux (c :: rest).length (c :: rest) = _
  simp only [List.length_cons, splitOnBrAux, if_neg hp]
  rfl

theorem splitOnBrAux_ne_nil (fuel : Nat) (l : Str) : splitOnBrAux fuel l ≠ [] := by
  cases fuel with
  | zero => simp [splitOnBrAux]
  | succ f =>
    cases l with
    | nil => simp [splitOnBrAux]
    | cons c rest =>
      simp only [splitOnBrAux]
      split
      · simp
      · cases splitOnBrAux f rest <;> simp

theorem splitOnBr_ne_nil (l : Str) : splitOnBr l ≠ [] := splitOnBrAux_ne_nil _ _

theorem splitOnBrAux_head_prefix (fuel : Nat) :
    ∀ l : Str, ∃ seg segs, splitOnBrAux fuel l = seg :: segs ∧ seg <+: l := by
  induction fuel with
  | zero => intro l; exact ⟨l, [], rfl, List.prefix_refl l⟩
  | succ f ih =>
    intro l
    cases l with
    | nil => exact ⟨[], [], rfl, List.nil_prefix⟩
    | cons c rest =>
      by_cases hp : brChars.isPrefixOf (c :: rest) = true
      · refine ⟨[], splitOnBrAux f ((c :: rest).drop 5), ?_, List.nil_prefix⟩
        simp [splitOnBrAux, hp]
      · obtain ⟨seg, segs, heq, hpre⟩ := ih rest
        refine ⟨c :: seg, segs, ?_, List.cons_prefix_cons.mpr ⟨rfl, hpre⟩⟩
        simp only [splitOnBrAux, if_neg hp, heq]

theorem splitOnBrAux_mem_brfree (fuel : Nat) :
    ∀ l : Str, l.length ≤ fuel →
      ∀ seg ∈ splitOnBrAux fuel l, containsSeq brChars seg = false := by
  induction fuel with
  | zero =>
    intro l hl seg hseg
    have hnil : l = [] := List.eq_nil_of_length_eq_zero (Nat.le_zero.mp hl)
    subst hnil
    simp only [splitOnBrAux, List.mem_singleton] at hseg
    subst hseg; rfl
  | succ f ih =>
    intro l hl seg hseg
    cases l with
    | nil =>
      simp only [splitOnBrAux, List.mem_singleton] at hseg
      subst hseg; rfl
    | cons c rest =>
      by_cases hp : brChars.isPrefixOf (c :: rest) = true
      · rw [show splitOnBrAux (f + 1) (c :: rest)
              = [] :: splitOnBrAux f ((c :: rest).drop 5) by
            simp [splitOnBrAux, hp]] at hseg
        rcases List.mem_cons.mp hseg with h | h
        · subst h; rfl
        · have hlen : ((c :: rest).drop 5).length ≤ f := by
            simp only [List.length_drop, List.length_cons]
            simp only [List.length_cons] at hl
            omega
          exact ih _ hlen seg h
      · obtain ⟨seg0, segs0, heq, hpre⟩ := splitOnBrAux_head_prefix f rest
        rw [show splitOnBrAux (f + 1) (c :: rest)
              = (match splitOnBrAux f rest with
                 | [] => [[c]]
                 | seg :: segs => (c :: seg) :: segs) by
            simp [splitOnBrAux, hp]] at hseg
        rw [heq] at hseg
        have hrest : rest.length ≤ f := by
          simp only [List.length_cons] at hl; omega
        rcases List.mem_cons.mp hseg with h | h
        · subst h
          cases hcs : containsSeq brChars (c :: seg0) with
          | false => rfl
          | true =>
            simp only [containsSeq, Bool.or_eq_true] at hcs
            rcases hcs with h2 | h2
            · have h3 : brChars <+: c :: seg0 := List.isPrefixOf_iff_prefix.mp h2
              have h4 : brChars <+: c :: rest :=
                h3.trans (List.cons_prefix_cons.mpr ⟨rfl, hpre⟩)
              rw [← List.isPrefixOf_iff_prefix] at h4
              exact absurd h4 hp
            · have h5 := ih rest hrest seg0 (by rw [heq]; exact List.mem_cons_self _ _)
              rw [h5] at h2
              exact absurd h2 (by simp)
        · exact ih rest hrest seg (by rw [heq]; exact List.mem_cons_of_mem _ h)

theorem splitOnBr_mem_brfree (l : Str) :
    ∀ seg ∈ splitOnBr l, containsSeq brChars seg = false :=
  splitOnBrAux_mem_brfree l.length l (Nat.le_refl _)

theorem brChars_not_prefix_mid (c : Char) (s t : Str)
    (hfree : containsSeq brChars (c :: s) = false) :
    ¬ brChars.isPrefixOf (c :: (s ++ brChars ++ t)) = true := by
  intro hp
  obtain ⟨u, hu⟩ := List.isPrefixOf_iff_prefix.mp hp
  rw [show brChars = '<' :: 'b' :: 'r' :: '/' :: '>' :: [] from rfl] at hu
  simp only [List.cons_append, List.nil_append, List.cons.injEq] at hu
  obtain ⟨hc, hu⟩ := hu
  cases s with
  | nil => simp [brChars] at hu
  | cons c2 s2 =>
    simp only [List.cons_append, List.cons.injEq] at hu
    obtain ⟨hc2, hu⟩ := hu
    cases s2 with
    | nil => simp [brChars] at hu
    | cons c3 s3 =>
      simp only [List.cons_append, List.cons.injEq] at hu
      obtain ⟨hc3, hu⟩ := hu
      cases s3 with
      | nil => simp [brChars] at hu
      | cons c4 s4 =>
        simp only [List.cons_append, List.cons.injEq] at hu
        obtain ⟨hc4, hu⟩ := hu
        cases s4 with
        | nil => simp [brChars] at hu
        | cons c5 s5 =>
          simp only [List.cons_append, List.cons.injEq] at hu
          obtain ⟨hc5, _⟩ := hu
          subst hc; subst hc2; subst hc3; subst hc4; subst hc5
          have hsp : brChars.isPrefixOf ('<' :: 'b' :: 'r' :: '/' :: '>' :: s5) = true := by
            rw [List.isPrefixOf_iff_prefix]
            exact ⟨s5, rfl⟩
          simp only [containsSeq, hsp, Bool.true_or] at hfree
          exact absurd hfree (by simp)

theorem splitOnBr_brfree (s : Str) (h : containsSeq brChars s = false) :
    splitOnBr s = [s] := by
  induction s with
  | nil => rfl
  | cons c rest ih =>
    simp only [containsSeq, Bool.or_eq_false_iff] at h
    have hp : ¬ brChars.isPrefixOf (c :: rest) = true := by
      rw [h.1]; simp
    rw [splitOnBr_cons_no_marker c rest hp, ih h.2]

theorem splitOnBr_append_marker (s t : Str) (h : containsSeq brChars s = false) :
    splitOnBr (s ++ brChars ++ t) = s :: splitOnBr t := by
  induction s with
  | nil =>
    simp only [List.nil_append]
    rw [splitOnBr_marker (brChars ++ t)
      (by rw [List.isPrefixOf_iff_prefix]; exact List.prefix_append _ _)]
    simp [brChars]
  | cons c s' ih =>
    simp only [containsSeq, Bool.or_eq_false_iff] at h
    have hp := brChars_not_prefix_mid c s' t (by
      simp only [containsSeq, Bool.or_eq_false_iff]
      exact h)
    rw [show (c :: s') ++ brChars ++ t = c :: (s' ++ brChars ++ t) by simp]
    rw [splitOnBr_cons_no_marker _ _ hp, ih h.2]

theorem splitOnBr_joinSep (L : List Str) (hne : L ≠ [])
    (hfree : ∀ seg ∈ L, containsSeq brChars seg = false) :
    splitOnBr (joinSep brChars L) = L := by
  induction L with
  | nil => exact absurd rfl hne
  | cons s ss ih =>
    cases ss with
    | nil => exact splitOnBr_brfree s (hfree s (List.mem_cons_self _ _))
    | cons s2 ss2 =>
      rw [show joinSep brChars (s :: s2 :: ss2)
            = s ++ brChars ++ joinSep brChars (s2 :: ss2) from rfl]
      rw [splitOnBr_append_marker _ _ (hfree s (List.mem_cons_self _ _))]
      rw [ih (by simp) fun seg hseg => hfree seg (List.mem_cons_of_mem _ hseg)]

/-! ### Chunk lemmas -/

theorem chunksAux_nil (k fuel : Nat) : chunksAux k fuel [] = [] := by
  cases fuel <;> simp [chunksAux]

theorem chunksAux_congr (k : Nat) (hk : 1 ≤ k) (f1 : Nat) :
    ∀ (f2 : Nat) (l : Str), l.length ≤ f1 → l.length ≤ f2 →
      chunksAux k f1 l = chunksAux k f2 l := by
  induction f1 with
  | zero =>
    intro f2 l h1 _
    have hl : l = [] := List.eq_nil_of_length_eq_zero (Nat.le_zero.mp h1)
    subst hl
    rw [chunksAux_nil, chunksAux_nil]
  | succ f1 ih =>
    intro f2 l h1 h2
    by_cases hl : l = []
    · subst hl; rw [chunksAux_nil, chunksAux_nil]
    · cases f2 with
      | zero =>
        exact absurd (List.eq_nil_of_length_eq_zero (Nat.le_zero.mp h2)) hl
      | succ f2 =>
        simp only [chunksAux, if_neg hl]
        have hpos := List.length_pos.mpr hl
        have hd1 : (l.drop k).length ≤ f1 := by
          rw [List.length_drop]; omega
        have hd2 : (l.drop k).length ≤ f2 := by
          rw [List.length_drop]; omega
        rw [ih f2 _ hd1 hd2]

theorem chunks_eq_aux (k : Nat) (hk : 1 ≤ k) (fuel : Nat) (l : Str)
    (h : l.length ≤ fuel) : chunks k l = chunksAux k fuel l :=
  chunksAux_congr k hk l.length fuel l (Nat.le_refl _) h

theorem chunks_cons (k : Nat) (hk : 1 ≤ k) (l : Str) (hl : l ≠ []) :
    chunks k l = l.take k :: chunks k (l.drop k) := by
  rw [show chunks k l = chunksAux k l.length l from rfl]
  cases hlen : l.length with
  | zero => exact absurd (List.eq_nil_of_length_eq_zero hlen) hl
  | succ m =>
    simp only [chunksAux, if_neg hl]
    congr 1
    refine (chunksAux_congr k hk m _ _ ?_ (Nat.le_refl _))
    rw [List.length_drop, hlen]; omega

theorem chunks_ne_nil (k : Nat) (l : Str) (hl : l ≠ []) : chunks k l ≠ [] := by
  rw [show chunks k l = chunksAux k l.length l from rfl]
  cases hlen : l.length with
  | zero => exact absurd (List.eq_nil_of_length_eq_zero hlen) hl
  | succ m => simp [chunksAux, if_neg hl]

theorem chunksAux_flatten (k : Nat) (hk : 1 ≤ k) (fuel : Nat) :
    ∀ l : Str, l.length ≤ fuel → (chunksAux k fuel l).flatten = l := by
  induction fuel with
  | zero =>
    intro l h
    rw [List.eq_nil_of_length_eq_zero (Nat.le_zero.mp h), chunksAux_nil]
    rfl
  | succ f ih =>
    intro l h
    by_cases hl : l = []
    · subst hl; rw [chunksAux_nil]; rfl
    · simp only [chunksAux, if_neg hl, List.flatten_cons]
      have hpos := List.length_pos.mpr hl
      rw [ih (l.drop k) (by rw [List.length_drop]; omega)]
      exact List.take_append_drop k l

theorem chunks_flatten (k : Nat) (hk : 1 ≤ k) (l : Str) :
    (chunks k l).flatten = l :=
  chunksAux_flatten k hk l.length l (Nat.le_refl _)

theorem chunksAux_mem (k : Nat) (hk : 1 ≤ k) (fuel : Nat) :
    ∀ l : Str, l.length ≤ fuel → ∀ c ∈ chunksAux k fuel l,
      c.length ≤ k ∧ c ≠ [] ∧ c <:+: l := by
  induction fuel with
  | zero =>
    intro l h c hc
    rw [List.eq_nil_of_length_eq_zero (Nat.le_zero.mp h), chunksAux_nil] at hc
    simp at hc
  | succ f ih =>
    intro l h c hc
    by_cases hl : l = []
    · subst hl; rw [chunksAux_nil] at hc; simp at hc
    · simp only [chunksAux, if_neg hl] at hc
      have hpos := List.length_pos.mpr hl
      rcases List.mem_cons.mp hc with h1 | h1
      · subst h1
        refine ⟨?_, ?_, ?_⟩
        · rw [List.length_take]; omega
        · simp [List.take_eq_nil_iff, hl]; omega
        · have htp := List.take_prefix k l
          exact htp.isInfix
      · obtain ⟨hlen, hne, hinf⟩ := ih (l.drop k) (by rw [List.length_drop]; omega) c h1
        have hds := List.drop_suffix k l
        exact ⟨hlen, hne, hinf.trans hds.isInfix⟩

theorem chunks_mem (k : Nat) (hk : 1 ≤ k) (l : Str) :
    ∀ c ∈ chunks k l, c.length ≤ k ∧ c ≠ [] ∧ c <:+: l :=
  chunksAux_mem k hk l.length l (Nat.le_refl _)

theorem chunksAux_dropLast (k : Nat) (hk : 1 ≤ k) (fuel : Nat) :
    ∀ l : Str, l.length ≤ fuel → ∀ c ∈ (chunksAux k fuel l).dropLast,
      c.length = k := by
  induction fuel with
  | zero =>
    intro l h c hc
    rw [List.eq_nil_of_length_eq_zero (Nat.le_zero.mp h), chunksAux_nil] at hc
    simp at hc
  | succ f ih =>
    intro l h c hc
    by_cases hl : l = []
    · subst hl; rw [chunksAux_nil] at hc; simp at hc
    · simp only [chunksAux, if_neg hl] at hc
      have hpos := List.length_pos.mpr hl
      cases hrec : chunksAux k f (l.drop k) with
      | nil => rw [hrec] at hc; simp at hc
      | cons c0 cs0 =>
        rw [hrec, List.dropLast_cons₂] at hc
        rcases List.mem_cons.mp hc with h1 | h1
        · subst h1
          have hdne : l.drop k ≠ [] := by
            intro hd
            rw [hd, chunksAux_nil] at hrec
            exact List.noConfusion hrec
          have hklen : k < l.length := by
            by_contra hnk
            exact hdne (List.drop_eq_nil_of_le (by omega))
          rw [List.length_take]; omega
        · rw [← hrec] at h1
          exact ih (l.drop k) (by rw [List.length_drop]; omega) c h1

theorem chunks_dropLast (k : Nat) (hk : 1 ≤ k) (l : Str) :
    ∀ c ∈ (chunks k l).dropLast, c.length = k :=
  chunksAux_dropLast k hk l.length l (Nat.le_refl _)

/-! ### Wrap lemmas -/

theorem flatMap_id_of_singleton {α : Type} (L : List α) (f : α → List α)
    (h : ∀ x ∈ L, f x = [x]) : L.flatMap f = L := by
  induction L with
  | nil => rfl
  | cons a t ih =>
    rw [List.flatMap_cons, h a (List.mem_cons_self _ _),
      ih fun x hx => h x (List.mem_cons_of_mem _ hx)]
    rfl

theorem wrap_parts_le (s : Str) (k : Nat) (hk : 1 ≤ k) :
    ∀ seg ∈ (splitOnBr s).flatMap
      (fun line => if k < line.length then chunks k line else [line]),
      seg.length ≤ k := by
  intro seg hseg
  rw [List.mem_flatMap] at hseg
  obtain ⟨line, _, hmem⟩ := hseg
  by_cases hlen : k < line.length
  · rw [if_pos hlen] at hmem
    exact (chunks_mem k hk line seg hmem).1
  · rw [if_neg hlen] at hmem
    simp at hmem; subst hmem; omega

theorem wrap_parts_brfree (s : Str) (k : Nat) (hk : 1 ≤ k) :
    ∀ seg ∈ (splitOnBr s).flatMap
      (fun line => if k < line.length then chunks k line else [line]),
      containsSeq brChars seg = false := by
  intro seg hseg
  rw [List.mem_flatMap] at hseg
  obtain ⟨line, hline, hmem⟩ := hseg
  have hlf := splitOnBr_mem_brfree s line hline
  by_cases hlen : k < line.length
  · rw [if_pos hlen] at hmem
    obtain ⟨_, _, hinf⟩ := chunks_mem k hk line seg hmem
    exact containsSeq_eq_false_of_mid _ _ _ hlf hinf
  · rw [if_neg hlen] at hmem
    simp at hmem; subst hmem; exact hlf

theorem wrap_parts_ne_nil (s : Str) (k : Nat) (_hk : 1 ≤ k) :
    (splitOnBr s).flatMap
      (fun line => if k < line.length then chunks k line else [line]) ≠ [] := by
  obtain ⟨seg, segs, heq, _⟩ := splitOnBrAux_head_prefix s.length s
  rw [show splitOnBr s = seg :: segs from heq, List.flatMap_cons]
  intro hcontra
  rw [List.append_eq_nil] at hcontra
  have h1 := hcontra.1
  by_cases hlen : k < seg.length
  · rw [if_pos hlen] at h1
    have hne : seg ≠ [] := by
      intro hnil; rw [hnil] at hlen; simp at hlen
    exact chunks_ne_nil k seg hne h1
  · rw [if_neg hlen] at h1
    exact List.noConfusion h1

theorem splitOnBr_wrap (s : Str) (k : Nat) (hk : 1 ≤ k) :
    splitOnBr (wrap_text_with_br s k) =
      (splitOnBr s).flatMap
        (fun line => if k < line.length then chunks k line else [line]) := by
  unfold wrap_text_with_br
  exact splitOnBr_joinSep _ (wrap_parts_ne_nil s k hk) (wrap_parts_brfree s k hk)

theorem wrap_seg_le (s : Str) (k : Nat) (hk : 1 ≤ k) :
    ∀ seg ∈ splitOnBr (wrap_text_with_br s k), seg.length ≤ k := by
  intro seg hseg
  rw [splitOnBr_wrap s k hk] at hseg
  exact wrap_parts_le s k hk seg hseg

theorem wrap_idem (s : Str) (k : Nat) (hk : 1 ≤ k) :
    wrap_text_with_br (wrap_text_with_br s k) k = wrap_text_with_br s k := by
  have h1 : wrap_text_with_br (wrap_text_with_br s k) k
      = joinSep brChars ((splitOnBr (wrap_text_with_br s k)).flatMap
          fun line => if k < line.length then chunks k line else [line]) := rfl
  rw [h1, splitOnBr_wrap s k hk]
  rw [flatMap_id_of_singleton _ _ fun x hx => by
    rw [if_neg (by have := wrap_parts_le s k hk x hx; omega)]]
  rfl

/-! ### Escaping lemmas -/

theorem pyReplace_append (p : Char) (r : Str) (x y : Str) :
    pyReplace p r (x ++ y) = pyReplace p r x ++ pyReplace p r y :=
  List.flatMap_append x y _

theorem escapeLabel_append (x y : Str) :
    escapeLabel (x ++ y) = escapeLabel x ++ escapeLabel y := by
  simp only [escapeLabel, pyReplace_append]

theorem escapeLabel_cons (c : Char) (s : Str) :
    escapeLabel (c :: s) = escapeLabel [c] ++ escapeLabel s := by
  rw [show c :: s = [c] ++ s from rfl, escapeLabel_append]

theorem escapeLabel_backslash : escapeLabel ['\\'] = ['\\', '\\'] := by decide
theorem escapeLabel_lbrack : escapeLabel ['['] = ['\\', '['] := by decide
theorem escapeLabel_rbrack : escapeLabel [']'] = ['\\', ']'] := by decide
theorem escapeLabel_lbrace : escapeLabel ['{'] = ['\\', '{'] := by decide
theorem escapeLabel_rbrace : escapeLabel ['}'] = ['\\', '}'] := by decide
theorem escapeLabel_lparen : escapeLabel ['('] = ['\\', '('] := by decide
theorem escapeLabel_rparen : escapeLabel [')'] = ['\\', ')'] := by decide
theorem escapeLabel_lt : escapeLabel ['<'] = ['&', 'l', 't', ';'] := by decide
theorem escapeLabel_gt : escapeLabel ['>'] = ['&', 'g', 't', ';'] := by decide
theorem escapeLabel_newline : escapeLabel ['\n'] = brChars := by decide

theorem escapeLabel_safe (c : Char) (h1 : c ≠ '\\') (h2 : c ≠ '[') (h3 : c ≠ ']')
    (h4 : c ≠ '{') (h5 : c ≠ '}') (h6 : c ≠ '(') (h7 : c ≠ ')') (h8 : c ≠ '<')
    (h9 : c ≠ '>') (h10 : c ≠ '\n') : escapeLabel [c] = [c] := by
  simp [escapeLabel, pyReplace, h1, h2, h3, h4, h5, h6, h7, h8, h9, h10]

theorem hUB_esc_pair (b : Char) (E : Str) :
    hasUnescapedBracket ('\\' :: b :: E) = hasUnescapedBracket E := by
  rw [hasUnescapedBracket.eq_def]
  dsimp only
  rw [if_pos (rfl : ('\\' : Char) = '\\')]

theorem hUB_cons_safe (c : Char) (E : Str) (h1 : c ≠ '\\')
    (hb : isBracketChar c = false) :
    hasUnescapedBracket (c :: E) = hasUnescapedBracket E := by
  rw [hasUnescapedBracket.eq_def]
  dsimp only
  rw [if_neg h1, hb]
  simp

theorem hSA_cons_safe (c : Char) (E : Str) (h1 : c ≠ '<') (h2 : c ≠ '>') :
    hasStrayAngle (c :: E) = hasStrayAngle E := by
  rw [hasStrayAngle.eq_def]
  dsimp only
  rw [if_neg h2, if_neg h1]

theorem hSA_br_block (E : Str) :
    hasStrayAngle ('<' :: 'b' :: 'r' :: '/' :: '>' :: E) = hasStrayAngle E := by
  rw [hasStrayAngle.eq_def]
  dsimp only
  rw [if_neg (by decide : ¬ ('<' : Char) = '>'), if_pos (rfl : ('<' : Char) = '<')]
  rfl

theorem hasUnescapedBracket_escape (s : Str) :
    hasUnescapedBracket (escapeLabel s) = false := by
  induction s with
  | nil => rfl
  | cons c rest ih =>
    rw [escapeLabel_cons]
    by_cases h1 : c = '\\'
    · subst h1; rw [escapeLabel_backslash]
      simp only [List.cons_append, List.nil_append]
      rw [hUB_esc_pair]; exact ih
    by_cases h2 : c = '['
    · subst h2; rw [escapeLabel_lbrack]
      simp only [List.cons_append, List.nil_append]
      rw [hUB_esc_pair]; exact ih
    by_cases h3 : c = ']'
    · subst h3; rw [escapeLabel_rbrack]
      simp only [List.cons_append, List.nil_append]
      rw [hUB_esc_pair]; exact ih
    by_cases h4 : c = '{'
    · subst h4; rw [escapeLabel_lbrace]
      simp only [List.cons_append, List.nil_append]
      rw [hUB_esc_pair]; exact ih
    by_cases h5 : c = '}'
    · subst h5; rw [escapeLabel_rbrace]
      simp only [List.cons_append, List.nil_append]
      rw [hUB_esc_pair]; exact ih
    by_cases h6 : c = '('
    · subst h6; rw [escapeLabel_lparen]
      simp only [List.cons_append, List.nil_append]
      rw [hUB_esc_pair]; exact ih
    by_cases h7 : c = ')'
    · subst h7; rw [escapeLabel_rparen]
      simp only [List.cons_append, List.nil_append]
      rw [hUB_esc_pair]; exact ih
    by_cases h8 : c = '<'
    · subst h8; rw [escapeLabel_lt]
      simp only [List.cons_append, List.nil_append]
      rw [hUB_cons_safe _ _ (by decide) (by decide),
        hUB_cons_safe _ _ (by decide) (by decide),
        hUB_cons_safe _ _ (by decide) (by decide),
        hUB_cons_safe _ _ (by decide) (by decide)]
      exact ih
    by_cases h9 : c = '>'
    · subst h9; rw [escapeLabel_gt]
      simp only [List.cons_append, List.nil_append]
      rw [hUB_cons_safe _ _ (by decide) (by decide),
        hUB_cons_safe _ _ (by decide) (by decide),
        hUB_cons_safe _ _ (by decide) (by decide),
        hUB_cons_safe _ _ (by decide) (by decide)]
      exact ih
    by_cases h10 : c = '\n'
    · subst h10; rw [escapeLabel_newline]
      simp only [brChars, List.cons_append, List.nil_append]
      rw [hUB_cons_safe _ _ (by decide) (by decide),
        hUB_cons_safe _ _ (by decide) (by decide),
        hUB_cons_safe _ _ (by decide) (by decide),
        hUB_cons_safe _ _ (by decide) (by decide),
        hUB_cons_safe _ _ (by decide) (by decide)]
      exact ih
    · rw [escapeLabel_safe c h1 h2 h3 h4 h5 h6 h7 h8 h9 h10]
      simp only [List.cons_append, List.nil_append]
      rw [hUB_cons_safe c _ h1 (by simp [isBracketChar, h2, h3, h4, h5, h6, h7])]
      exact ih

theorem hasStrayAngle_escape (s : Str) :
    hasStrayAngle (escapeLabel s) = false := by
  induction s with
  | nil => rfl
  | cons c rest ih =>
    rw [escapeLabel_cons]
    by_cases h1 : c = '\\'
    · subst h1; rw [escapeLabel_backslash]
      simp only [List.cons_append, List.nil_append]
      rw [hSA_cons_safe _ _ (by decide) (by decide),
        hSA_cons_safe _ _ (by decide) (by decide)]
      exact ih
    by_cases h2 : c = '['
    · subst h2; rw [escapeLabel_lbrack]
      simp only [List.cons_append, List.nil_append]
      rw [hSA_cons_safe _ _ (by decide) (by decide),
        hSA_cons_safe _ _ (by decide) (by decide)]
      exact ih
    by_cases h3 : c = ']'
    · subst h3; rw [escapeLabel_rbrack]
      simp only [List.cons_append, List.nil_append]
      rw [hSA_cons_safe _ _ (by decide) (by decide),
        hSA_cons_safe _ _ (by decide) (by decide)]
      exact ih
    by_cases h4 : c = '{'
    · subst h4; rw [escapeLabel_lbrace]
      simp only [List.cons_append, List.nil_append]
      rw [hSA_cons_safe _ _ (by decide) (by decide),
        hSA_cons_safe _ _ (by decide) (by decide)]
      exact ih
    by_cases h5 : c = '}'
    · subst h5; rw [escapeLabel_rbrace]
      simp only [List.cons_append, List.nil_append]
      rw [hSA_cons_safe _ _ (by decide) (by decide),
        hSA_cons_safe _ _ (by decide) (by decide)]
      exact ih
    by_cases h6 : c = '('
    · subst h6; rw [escapeLabel_lparen]
      simp only [List.cons_append, List.nil_append]
      rw [hSA_cons_safe _ _ (by decide) (by decide),
        hSA_cons_safe _ _ (by decide) (by decide)]
      exact ih
    by_cases h7 : c = ')'
    · subst h7; rw [escapeLabel_rparen]
      simp only [List.cons_append, List.nil_append]
      rw [hSA_cons_safe _ _ (by decide) (by decide),
        hSA_cons_safe _ _ (by decide) (by decide)]
      exact ih
    by_cases h8 : c = '<'
    · subst h8; rw [escapeLabel_lt]
      simp only [List.cons_append, List.nil_append]
      rw [hSA_cons_safe _ _ (by decide) (by decide),
        hSA_cons_safe _ _ (by decide) (by decide),
        hSA_cons_safe _ _ (by decide) (by decide),
        hSA_cons_safe _ _ (by decide) (by decide)]
      exact ih
    by_cases h9 : c = '>'
    · subst h9; rw [escapeLabel_gt]
      simp only [List.cons_append, List.nil_append]
      rw [hSA_cons_safe _ _ (by decide) (by decide),
        hSA_cons_safe _ _ (by decide) (by decide),
        hSA_cons_safe _ _ (by decide) (by decide),
        hSA_cons_safe _ _ (by decide) (by decide)]
      exact ih
    by_cases h10 : c = '\n'
    · subst h10; rw [escapeLabel_newline]
      simp only [brChars, List.cons_append, List.nil_append]
      rw [hSA_br_block]
      exact ih
    · rw [escapeLabel_safe c h1 h2 h3 h4 h5 h6 h7 h8 h9 h10]
      simp only [List.cons_append, List.nil_append]
      rw [hSA_cons_safe c _ h8 h9]
      exact ih

/-! ### Validator lemmas -/

theorem go_cons_nonbreak (c : Char) (rest : Str) (h : isLineBreakChar c = false) :
    splitlinesGo (c :: rest) =
      match splitlinesGo rest with
      | [] => [[c]]
      | seg :: segs => (c :: seg) :: segs := by
  have hcr : c ≠ '\r' := by
    intro e; subst e; exact absurd h (by decide)
  rw [splitlinesGo.eq_def]
  split <;> simp_all

theorem go_cons_break (c : Char) (rest : Str) (h : isLineBreakChar c = true)
    (hcr : c ≠ '\r') :
    splitlinesGo (c :: rest) = [] :: splitlinesGo rest := by
  rw [splitlinesGo.eq_def]
  split <;> simp_all

theorem go_crlf (rest : Str) :
    splitlinesGo ('\r' :: '\n' :: rest) = [] :: splitlinesGo rest := rfl

theorem go_cr (rest : Str) (h : ∀ r2, rest ≠ '\n' :: r2) :
    splitlinesGo ('\r' :: rest) = [] :: splitlinesGo rest := by
  rw [splitlinesGo.eq_def]
  split <;> simp_all
  rename_i heq
  intro hbreak
  rw [← heq.1] at hbreak
  exact absurd hbreak (by decide)

theorem go_ne_nil (l : Str) : splitlinesGo l ≠ [] := by
  generalize hn : l.length = n
  induction n using Nat.strong_induction_on generalizing l with
  | _ n ih =>
    cases l with
    | nil => simp [splitlinesGo]
    | cons c rest =>
      by_cases hb : isLineBreakChar c = true
      · by_cases hcr : c = '\r'
        · subst hcr
          cases rest with
          | nil => rw [go_cr [] (by intro r2 h; exact List.noConfusion h)]; simp
          | cons c2 rest2 =>
            by_cases hc2 : c2 = '\n'
            · subst hc2; rw [go_crlf]; simp
            · rw [go_cr _ (by intro r2 h; rw [List.cons.injEq] at h; exact hc2 h.1)]
              simp
        · rw [go_cons_break c rest hb hcr]; simp
      · rw [go_cons_nonbreak c rest (by simpa using hb)]
        cases splitlinesGo rest <;> simp

theorem go_cons_nonbreak2 (c : Char) (rest : Str) (seg : Str) (segs : List Str)
    (h : isLineBreakChar c = false) (heq : splitlinesGo rest = seg :: segs) :
    splitlinesGo (c :: rest) = (c :: seg) :: segs := by
  rw [go_cons_nonbreak c rest h, heq]

theorem go_header (t : Str) :
    splitlinesGo (['g', 'r', 'a', 'p', 'h', ' ', 'T', 'D', '\n'] ++ t)
      = ['g', 'r', 'a', 'p', 'h', ' ', 'T', 'D'] :: splitlinesGo t := by
  have h0 : splitlinesGo ('\n' :: t) = [] :: splitlinesGo t := rfl
  have h1 := go_cons_nonbreak2 'D' _ _ _ (by decide) h0
  have h2 := go_cons_nonbreak2 'T' _ _ _ (by decide) h1
  have h3 := go_cons_nonbreak2 ' ' _ _ _ (by decide) h2
  have h4 := go_cons_nonbreak2 'h' _ _ _ (by decide) h3
  have h5 := go_cons_nonbreak2 'p' _ _ _ (by decide) h4
  have h6 := go_cons_nonbreak2 'a' _ _ _ (by decide) h5
  have h7 := go_cons_nonbreak2 'r' _ _ _ (by decide) h6
  have h8 := go_cons_nonbreak2 'g' _ _ _ (by decide) h7
  exact h8

theorem go_head_of_prefix (pat : Str) (hnb : ∀ c ∈ pat, isLineBreakChar c = false) :
    ∀ l : Str, pat <+: l →
      ∃ seg segs, splitlinesGo l = seg :: segs ∧ pat <+: seg := by
  induction pat with
  | nil =>
    intro l _
    cases hgo : splitlinesGo l with
    | nil => exact absurd hgo (go_ne_nil l)
    | cons seg segs => exact ⟨seg, segs, rfl, List.nil_prefix⟩
  | cons p pat' ih =>
    intro l hp
    obtain ⟨u, hu⟩ := hp
    cases l with
    | nil => exact List.noConfusion hu
    | cons c rest =>
      rw [List.cons_append, List.cons.injEq] at hu
      obtain ⟨hc, hrest⟩ := hu
      subst hc
      have hpre : pat' <+: rest := ⟨u, hrest⟩
      obtain ⟨seg, segs, hgo, hps⟩ :=
        ih (fun c hcmem => hnb c (List.mem_cons_of_mem _ hcmem)) rest hpre
      refine ⟨p :: seg, segs, ?_, List.cons_prefix_cons.mpr ⟨rfl, hps⟩⟩
      exact go_cons_nonbreak2 p rest seg segs
        (hnb p (List.mem_cons_self _ _)) hgo

theorem go_marker_in_seg (pat : Str) (hne : pat ≠ [])
    (hnb : ∀ c ∈ pat, isLineBreakChar c = false) :
    ∀ l : Str, containsSeq pat l = true →
      ∃ seg ∈ splitlinesGo l, containsSeq pat seg = true := by
  intro l
  generalize hn : l.length = n
  induction n using Nat.strong_induction_on generalizing l with
  | _ n ih =>
    intro hcs
    cases l with
    | nil =>
      simp only [containsSeq, decide_eq_true_eq] at hcs
      exact absurd hcs hne
    | cons c rest =>
      simp only [containsSeq, Bool.or_eq_true] at hcs
      rcases hcs with hpre | hrest
      · obtain ⟨seg, segs, hgo, hps⟩ :=
          go_head_of_prefix pat hnb (c :: rest) (List.isPrefixOf_iff_prefix.mp hpre)
        refine ⟨seg, by rw [hgo]; exact List.mem_cons_self _ _, ?_⟩
        exact (containsSeq_iff_mid pat seg).mpr hps.isInfix
      · by_cases hb : isLineBreakChar c = true
        · by_cases hcr : c = '\r'
          · subst hcr
            cases rest with
            | nil =>
              simp only [containsSeq, decide_eq_true_eq] at hrest
              exact absurd hrest hne
            | cons c2 rest2 =>
              by_cases hc2 : c2 = '\n'
              · subst hc2
                have hrest2 : containsSeq pat rest2 = true := by
                  simp only [containsSeq, Bool.or_eq_true] at hrest
                  rcases hrest with hpre2 | h2
                  · obtain ⟨u, hu⟩ := List.isPrefixOf_iff_prefix.mp hpre2
                    cases pat with
                    | nil => exact absurd rfl hne
                    | cons p pat' =>
                      rw [List.cons_append, List.cons.injEq] at hu
                      have hbp := hnb p (List.mem_cons_self _ _)
                      rw [hu.1] at hbp
                      exact absurd hbp (by decide)
                  · exact h2
                obtain ⟨seg, hmem, hcseg⟩ :=
                  ih rest2.length (by subst hn; simp; omega) rest2 rfl hrest2
                refine ⟨seg, ?_, hcseg⟩
                rw [go_crlf]
                exact List.mem_cons_of_mem _ hmem
              · obtain ⟨seg, hmem, hcseg⟩ :=
                  ih (c2 :: rest2).length (by subst hn; simp) _ rfl hrest
                refine ⟨seg, ?_, hcseg⟩
                rw [go_cr _ (by intro r2 h; rw [List.cons.injEq] at h; exact hc2 h.1)]
                exact List.mem_cons_of_mem _ hmem
          · obtain ⟨seg, hmem, hcseg⟩ :=
              ih rest.length (by subst hn; simp) rest rfl hrest
            refine ⟨seg, ?_, hcseg⟩
            rw [go_cons_break c rest hb hcr]
            exact List.mem_cons_of_mem _ hmem
        · obtain ⟨seg, hmem, hcseg⟩ :=
            ih rest.length (by subst hn; simp) rest rfl hrest
          cases hgo : splitlinesGo rest with
          | nil => exact absurd hgo (go_ne_nil rest)
          | cons seg0 segs0 =>
            rw [go_cons_nonbreak2 c rest seg0 segs0 (by simpa using hb) hgo]
            rw [hgo] at hmem
            rcases List.mem_cons.mp hmem with h1 | h1
            · rw [h1] at hcseg
              refine ⟨c :: seg0, List.mem_cons_self _ _, ?_⟩
              simp only [containsSeq, Bool.or_eq_true]
              exact Or.inr hcseg
            · exact ⟨seg, List.mem_cons_of_mem _ h1, hcseg⟩

theorem lstrip_cons_nonspace (c : Char) (t : Str) (h : pyIsSpace c = false) :
    lstrip (c :: t) = c :: t := by
  simp [lstrip, List.dropWhile_cons, h]

theorem rstrip_append (X t : Str) (c : Char) (hc : pyIsSpace c = false) :
    rstrip (X ++ c :: t) = X ++ c :: rstrip t := by
  unfold rstrip
  rw [List.reverse_append, List.reverse_cons, List.append_assoc]
  rw [List.dropWhile_append]
  by_cases he : (t.reverse.dropWhile pyIsSpace).isEmpty = true
  · rw [if_pos he]
    have ht : t.reverse.dropWhile pyIsSpace = [] := List.isEmpty_iff.mp he
    rw [ht]
    simp [List.dropWhile_cons, hc]
  · rw [if_neg he]
    simp [List.reverse_append]

theorem seg_ne_nil_of_contains (pat seg : Str) (hne : pat ≠ [])
    (h : containsSeq pat seg = true) : seg ≠ [] := by
  intro hnil
  subst hnil
  simp only [containsSeq, decide_eq_true_eq] at h
  exact absurd h hne

theorem mem_dropLast_of_last_nil (L : List Str) (x : Str) (hx : x ∈ L)
    (hxne : x ≠ []) (hlast : L.getLast? = some []) : x ∈ L.dropLast := by
  have hLne : L ≠ [] := by
    intro h; subst h; simp at hx
  have hgl : L.getLast hLne = [] := by
    rw [List.getLast?_eq_getLast L hLne] at hlast
    exact Option.some.inj hlast
  have hdecomp := List.dropLast_append_getLast hLne
  rw [hgl] at hdecomp
  rw [← hdecomp] at hx
  rcases List.mem_append.mp hx with h1 | h1
  · exact h1
  · simp at h1
    exact absurd h1 hxne

theorem valid_of_marker (pat A B : Str) (hne : pat ≠ [])
    (hns : ∀ c ∈ pat, pyIsSpace c = false)
    (hnb : ∀ c ∈ pat, isLineBreakChar c = false)
    (hpat : pat = ['['] ∨ pat = ['-', '-']) :
    is_valid_mermaid
      (['g', 'r', 'a', 'p', 'h', ' ', 'T', 'D', '\n'] ++ (A ++ (pat ++ B))) = true := by
  have hm : pat.dropLast ++ [pat.getLast hne] = pat := List.dropLast_append_getLast hne
  have hms : pyIsSpace (pat.getLast hne) = false := hns _ (List.getLast_mem hne)
  -- the stripped text
  have hT : ['g', 'r', 'a', 'p', 'h', ' ', 'T', 'D', '\n'] ++ (A ++ (pat ++ B))
      = (['g', 'r', 'a', 'p', 'h', ' ', 'T', 'D', '\n'] ++ A ++ pat.dropLast)
        ++ pat.getLast hne :: B := by
    rw [show pat.getLast hne :: B = [pat.getLast hne] ++ B from rfl]
    conv_lhs => rw [← hm]
    simp [List.append_assoc]
  have hlstrip : lstrip (['g', 'r', 'a', 'p', 'h', ' ', 'T', 'D', '\n']
      ++ (A ++ (pat ++ B)))
      = ['g', 'r', 'a', 'p', 'h', ' ', 'T', 'D', '\n'] ++ (A ++ (pat ++ B)) := by
    simp only [List.cons_append]
    exact lstrip_cons_nonspace 'g' _ (by decide)
  have hstrip : pystrip (['g', 'r', 'a', 'p', 'h', ' ', 'T', 'D', '\n']
      ++ (A ++ (pat ++ B)))
      = ['g', 'r', 'a', 'p', 'h', ' ', 'T', 'D', '\n'] ++ (A ++ (pat ++ rstrip B)) := by
    unfold pystrip
    rw [hlstrip, hT, rstrip_append _ _ _ hms]
    rw [show pat.getLast hne :: rstrip B = [pat.getLast hne] ++ rstrip B from rfl]
    conv_rhs => rw [← hm]
    simp [List.append_assoc]
  -- the marker survives in the stripped tail
  have hcsT : containsSeq pat (A ++ (pat ++ rstrip B)) = true := by
    rw [containsSeq_iff_mid]
    exact ⟨A, rstrip B, by simp [List.append_assoc]⟩
  obtain ⟨seg, hsegmem, hsegc⟩ := go_marker_in_seg pat hne hnb _ hcsT
  have hsegne : seg ≠ [] := seg_ne_nil_of_contains pat seg hne hsegc
  -- the split lines of the stripped text
  have hgo := go_header (A ++ (pat ++ rstrip B))
  -- assemble the validator run
  have hsne : ¬ (['g', 'r', 'a', 'p', 'h', ' ', 'T', 'D', '\n']
      ++ (A ++ (pat ++ B)) = []) := by simp
  rw [is_valid_mermaid, if_neg hsne, hstrip]
  have hsplitne : ¬ (['g', 'r', 'a', 'p', 'h', ' ', 'T', 'D', '\n']
      ++ (A ++ (pat ++ rstrip B)) = []) := by simp
  rw [pySplitlines]
  rw [if_neg hsplitne]
  simp only [hgo]
  -- case on whether the final line is empty
  obtain ⟨s0, ss0, hgo0⟩ :
      ∃ s0 ss0, splitlinesGo (A ++ (pat ++ rstrip B)) = s0 :: ss0 := by
    cases hg : splitlinesGo (A ++ (pat ++ rstrip B)) with
    | nil => exact absurd hg (go_ne_nil _)
    | cons a b => exact ⟨a, b, rfl⟩
  rw [hgo0]
  rw [hgo0] at hsegmem
  by_cases hlast : (['g', 'r', 'a', 'p', 'h', ' ', 'T', 'D'] :: s0 :: ss0).getLast?
      = some ([] : Str)
  · rw [if_pos hlast, List.dropLast_cons₂]
    have hmem2 : seg ∈ (s0 :: ss0).dropLast := by
      apply mem_dropLast_of_last_nil _ _ hsegmem hsegne
      rw [← List.getLast?_cons_cons (a := ['g', 'r', 'a', 'p', 'h', ' ', 'T', 'D'])]
      exact hlast
    cases hdl : (s0 :: ss0).dropLast with
    | nil => rw [hdl] at hmem2; simp at hmem2
    | cons d0 ds0 =>
      rw [hdl] at hmem2
      dsimp only
      rw [Bool.and_eq_true]
      refine ⟨by decide, ?_⟩
      rw [List.any_eq_true]
      refine ⟨seg, hmem2, ?_⟩
      rcases hpat with hp | hp <;> subst hp <;> rw [hsegc] <;> simp
  · rw [if_neg hlast]
    dsimp only
    rw [Bool.and_eq_true]
    refine ⟨by decide, ?_⟩
    rw [List.any_eq_true]
    refine ⟨seg, hsegmem, ?_⟩
    rcases hpat with hp | hp <;> subst hp <;> rw [hsegc] <;> simp

theorem generate_valid_of_shape_or_edge (nodes : List NodeIn) (edges : List EdgeIn)
    (h : (∃ n ∈ nodes, nodeShape n ≠ "diamond".toList) ∨ edges ≠ []) :
    is_valid_mermaid (generate_mermaid_diagram nodes edges) = true := by
  rcases h with ⟨n, hn, hshape⟩ | hedge
  · obtain ⟨l1, l2, hsplit⟩ := List.append_of_mem hn
    have hgen : generate_mermaid_diagram nodes edges
        = ['g', 'r', 'a', 'p', 'h', ' ', 'T', 'D', '\n']
          ++ ((l1.flatMap nodeLine ++ ("    ".toList ++ n.id))
            ++ (['[']
              ++ (['"'] ++ divOpen
                ++ escapeLabel (wrap_text_with_br n.label MAX_CHARS_PER_LINE)
                ++ divClose ++ ['"', ']'] ++ ['\n']
                ++ (l2.flatMap nodeLine ++ edges.flatMap edgeLine)))) := by
      rw [generate_mermaid_diagram, hsplit, List.flatMap_append, List.flatMap_cons]
      rw [show nodeLine n
          = "    ".toList ++ n.id ++ ['[', '"'] ++ divOpen
            ++ escapeLabel (wrap_text_with_br n.label MAX_CHARS_PER_LINE)
            ++ divClose ++ ['"', ']'] ++ ['\n'] by
        rw [nodeLine]
        rw [if_neg hshape]]
      rw [show "graph TD\n".toList = ['g', 'r', 'a', 'p', 'h', ' ', 'T', 'D', '\n']
        from rfl]
      rw [show ['[', '"'] = ['['] ++ ['"'] from rfl]
      simp [List.append_assoc]
    rw [hgen]
    exact valid_of_marker ['['] _ _ (by simp) (by decide) (by decide) (Or.inl rfl)
  · cases edges with
    | nil => exact absurd rfl hedge
    | cons e es =>
      have hgen : generate_mermaid_diagram nodes (e :: es)
          = ['g', 'r', 'a', 'p', 'h', ' ', 'T', 'D', '\n']
            ++ ((nodes.flatMap nodeLine ++ ("    ".toList ++ e.source ++ [' ']))
              ++ (['-', '-']
                ++ (['>', ' '] ++ e.target ++ ['\n'] ++ es.flatMap edgeLine))) := by
        rw [generate_mermaid_diagram, List.flatMap_cons]
        rw [show edgeLine e
            = "    ".toList ++ e.source ++ " --> ".toList ++ e.target ++ ['\n']
          from rfl]
        rw [show "graph TD\n".toList = ['g', 'r', 'a', 'p', 'h', ' ', 'T', 'D', '\n']
          from rfl]
        rw [show " --> ".toList = [' '] ++ (['-', '-'] ++ ['>', ' ']) from rfl]
        simp [List.append_assoc]
      rw [hgen]
      exact valid_of_marker ['-', '-'] _ _ (by simp) (by decide) (by decide) (Or.inr rfl)

/-! ### Graph construction lemmas -/

theorem mem_addIfAbsent_self {α : Type} [DecidableEq α] (l : List α) (x : α) :
    x ∈ addIfAbsent l x := by
  unfold addIfAbsent
  split
  · assumption
  · simp

theorem mem_addIfAbsent_of_mem {α : Type} [DecidableEq α] (l : List α) (x y : α)
    (h : y ∈ l) : y ∈ addIfAbsent l x := by
  unfold addIfAbsent
  split
  · exact h
  · simp [h]

theorem nodup_addIfAbsent {α : Type} [DecidableEq α] (l : List α) (x : α)
    (h : l.Nodup) : (addIfAbsent l x).Nodup := by
  unfold addIfAbsent
  split
  · exact h
  · rename_i hx
    rw [show l ++ [x] = l.concat x from (List.concat_eq_append l x).symm]
    exact h.concat hx

theorem foldl_invariant {α β : Type} (P : β → Prop) (f : β → α → β) (l : List α)
    (init : β) (hinit : P init) (hstep : ∀ b a, a ∈ l → P b → P (f b a)) :
    P (l.foldl f init) := by
  induction l generalizing init with
  | nil => exact hinit
  | cons a t ih =>
    exact ih (f init a) (hstep init a (List.mem_cons_self _ _) hinit)
      fun b x hx hb => hstep b x (List.mem_cons_of_mem _ hx) hb

theorem mem_addIfAbsent_iff {α : Type} [DecidableEq α] (l : List α) (x y : α) :
    y ∈ addIfAbsent l x ↔ y ∈ l ∨ y = x := by
  unfold addIfAbsent
  split
  · rename_i hx
    constructor
    · exact fun h => Or.inl h
    · intro h
      rcases h with h | h
      · exact h
      · subst h; exact hx
  · simp

theorem buildGraph_wf (nodes : List NodeIn) (edges : List EdgeIn) :
    WfGraph (buildGraph nodes edges) := by
  unfold buildGraph
  have hids0 : (nodes.foldl (fun acc n => addIfAbsent acc n.id) []).Nodup := by
    apply foldl_invariant (fun l : List Str => l.Nodup) _ _ _ List.nodup_nil
    intro b a _ hb
    exact nodup_addIfAbsent b a.id hb
  apply foldl_invariant
    (fun acc : List Str × List (Str × Str) => WfGraph ⟨acc.1, acc.2⟩) _ _ _
    ⟨hids0, by simp⟩
  intro b e _ hb
  obtain ⟨hnd, hcl⟩ := hb
  refine ⟨?_, ?_⟩
  · exact nodup_addIfAbsent _ _ (nodup_addIfAbsent _ _ hnd)
  · intro p hp
    simp only [WfGraph] at *
    rcases (mem_addIfAbsent_iff _ _ _).mp hp with h1 | h1
    · obtain ⟨h2, h3⟩ := hcl p h1
      exact ⟨mem_addIfAbsent_of_mem _ _ _ (mem_addIfAbsent_of_mem _ _ _ h2),
        mem_addIfAbsent_of_mem _ _ _ (mem_addIfAbsent_of_mem _ _ _ h3)⟩
    · subst h1
      exact ⟨mem_addIfAbsent_of_mem _ _ _ (mem_addIfAbsent_self _ _),
        mem_addIfAbsent_self _ _⟩

theorem succsOf_mem_pairs (g : Graph) (u v : Str) (h : v ∈ succsOf g u) :
    (u, v) ∈ g.pairs := by
  unfold succsOf at h
  rw [List.mem_map] at h
  obtain ⟨p, hp, hpv⟩ := h
  rw [List.mem_filter] at hp
  obtain ⟨hmem, hfst⟩ := hp
  rw [decide_eq_true_eq] at hfst
  have hpeq : p = (u, v) := by
    cases p
    simp only [Prod.mk.injEq]
    exact ⟨hfst, hpv⟩
  rw [← hpeq]
  exact hmem

theorem succsOf_closed (g : Graph) (hwf : WfGraph g) (u v : Str)
    (h : v ∈ succsOf g u) : v ∈ g.nodeIds :=
  (hwf.2 (u, v) (succsOf_mem_pairs g u v h)).2

theorem sourcesOf_subset (g : Graph) (v : Str) (h : v ∈ sourcesOf g) :
    v ∈ g.nodeIds := by
  unfold sourcesOf at h
  exact (List.mem_filter.mp h).1

theorem succsOf_not_isolated (g : Graph) (u v : Str) (h : v ∈ succsOf g u) :
    ¬ isolatedIn g v := by
  intro hiso
  have hmem := succsOf_mem_pairs g u v h
  have hdeg : 0 < inDegree g v := by
    unfold inDegree
    rw [List.length_pos]
    intro hnil
    have hmem2 : (u, v) ∈ g.pairs.filter fun p => decide (p.2 = v) := by
      rw [List.mem_filter]
      exact ⟨hmem, by simp⟩
    rw [hnil] at hmem2
    simp at hmem2
  have h0 := hiso.1
  omega

/-! ### Rank dictionary lemmas -/

theorem lookup_map_pair (ids : List Str) (v : Str) (c : Int) (h : v ∈ ids) :
    (ids.map fun u => (u, c)).lookup v = some c := by
  induction ids with
  | nil => simp at h
  | cons u t ih =>
    by_cases hv : v = u
    · have hbeq : (v == u) = true := by simp [hv]
      simp [List.lookup_cons, hbeq]
    · have hbeq : (v == u) = false := by simp [hv]
      rcases List.mem_cons.mp h with h1 | h1
      · exact absurd h1 hv
      · simp only [List.map_cons, List.lookup_cons, hbeq]
        exact ih h1

theorem lookup_isSome_iff (l : List (Str × Int)) (v : Str) :
    (l.lookup v).isSome = true ↔ v ∈ l.map Prod.fst := by
  induction l with
  | nil => simp
  | cons p t ih =>
    cases p with
    | mk k q =>
      by_cases hv : v = k
      · have hbeq : (v == k) = true := by simp [hv]
        simp [List.lookup_cons, hbeq, hv]
      · have hbeq : (v == k) = false := by simp [hv]
        simp only [List.lookup_cons, hbeq, List.map_cons, List.mem_cons]
        rw [ih]
        constructor
        · exact fun h => Or.inr h
        · intro h
          rcases h with h | h
          · exact absurd h hv
          · exact h

theorem lookup_updateRank (v : Str) (r : Int) (ranks : List (Str × Int)) (x : Str) :
    (updateRank v r ranks).lookup x =
      if x = v then (ranks.lookup x).map fun q => max q r
      else ranks.lookup x := by
  induction ranks with
  | nil => unfold updateRank; simp
  | cons p t ih =>
    cases p with
    | mk k q =>
      unfold updateRank at ih ⊢
      simp only [List.map_cons]
      by_cases hk : k = v
      · subst hk
        rw [if_pos (show (k, q).1 = k from rfl)]
        by_cases hx : x = k
        · have hbeq : (x == k) = true := by simp [hx]
          simp only [List.lookup_cons, hbeq, if_pos hx]
          simp
        · have hbeq : (x == k) = false := by simp [hx]
          simp only [List.lookup_cons, hbeq, if_neg hx]
          rw [ih]
          simp [hx]
      · rw [if_neg (show ¬ (k, q).1 = v from hk)]
        by_cases hx : x = k
        · have hbeq : (x == k) = true := by simp [hx]
          have hxv : ¬ x = v := by rw [hx]; exact hk
          simp only [List.lookup_cons, hbeq, if_neg hxv]
        · have hbeq : (x == k) = false := by simp [hx]
          simp only [List.lookup_cons, hbeq]
          exact ih

theorem rankOf_updateRank_ge (v : Str) (r : Int) (ranks : List (Str × Int)) (x : Str) :
    rankOf ranks x ≤ rankOf (updateRank v r ranks) x := by
  unfold rankOf
  rw [lookup_updateRank]
  by_cases hx : x = v
  · rw [if_pos hx]
    cases ranks.lookup x with
    | none => simp
    | some q => simp [le_max_left]
  · rw [if_neg hx]

theorem rankOf_updateRank_self (v : Str) (r : Int) (ranks : List (Str × Int))
    (h : (ranks.lookup v).isSome = true) :
    r ≤ rankOf (updateRank v r ranks) v := by
  unfold rankOf
  rw [lookup_updateRank, if_pos rfl]
  cases hq : ranks.lookup v with
  | none => rw [hq] at h; simp at h
  | some q => simp [le_max_right]

theorem updateRank_keys (v : Str) (r : Int) (ranks : List (Str × Int)) :
    (updateRank v r ranks).map Prod.fst = ranks.map Prod.fst := by
  unfold updateRank
  rw [List.map_map]
  apply List.map_congr_left
  intro p _
  by_cases hp : p.1 = v
  · simp [hp]
  · simp [hp]

theorem updateRank_mem_val (v : Str) (r : Int) (ranks : List (Str × Int))
    (hall : ∀ p ∈ ranks, 0 ≤ p.2) :
    ∀ p ∈ updateRank v r ranks, 0 ≤ p.2 := by
  intro p hp
  unfold updateRank at hp
  rw [List.mem_map] at hp
  obtain ⟨q, hq, hqe⟩ := hp
  by_cases hv : q.1 = v
  · rw [if_pos hv] at hqe
    rw [← hqe]
    have := hall q hq
    simp only
    exact le_max_of_le_left this
  · rw [if_neg hv] at hqe
    rw [← hqe]
    exact hall q hq

theorem filter_notmem_cons_length (ids vis : List Str) (s : Str)
    (hnd : ids.Nodup) (hs : s ∈ ids) (hnv : ¬ s ∈ vis) :
    (ids.filter fun v => decide (¬ v ∈ s :: vis)).length + 1
      = (ids.filter fun v => decide (¬ v ∈ vis)).length := by
  induction ids with
  | nil => simp at hs
  | cons a t iht =>
    have hndt : t.Nodup := (List.nodup_cons.mp hnd).2
    have hat : ¬ a ∈ t := (List.nodup_cons.mp hnd).1
    rcases List.mem_cons.mp hs with h1 | h1
    · have hsame : t.filter (fun v => decide (¬ v ∈ s :: vis))
          = t.filter fun v => decide (¬ v ∈ vis) := by
        apply List.filter_congr
        intro x hx
        have hxs : x ≠ s := by
          intro he
          rw [← he] at h1
          rw [h1] at hx
          exact hat hx
        simp [List.mem_cons, hxs]
      have hc1 : (decide (¬ a ∈ s :: vis)) = false := by
        rw [h1]; simp
      have hc2 : (decide (¬ a ∈ vis)) = true := by
        rw [h1] at hnv; simp [hnv]
      rw [List.filter_cons, List.filter_cons, hc1, hc2, hsame]
      simp
    · have hsa : s ≠ a := by
        intro he; rw [he] at h1; exact hat h1
      rw [List.filter_cons, List.filter_cons]
      by_cases hav : a ∈ vis
      · have hc1 : (decide (¬ a ∈ s :: vis)) = false := by simp [hav]
        have hc2 : (decide (¬ a ∈ vis)) = false := by simp [hav]
        rw [hc1, hc2]
        simp only [Bool.false_eq_true, if_neg]
        exact iht hndt h1
      · have hc1 : (decide (¬ a ∈ s :: vis)) = true := by
          simp [List.mem_cons, hav, Ne.symm hsa]
        have hc2 : (decide (¬ a ∈ vis)) = true := by simp [hav]
        rw [hc1, hc2]
        have hrec := iht hndt h1
        simp only [if_true, List.length_cons]
        simp at hrec ⊢
        omega

theorem unvisited_cons (g : Graph) (vis : List Str) (s : Str)
    (hnd : g.nodeIds.Nodup) (hs : s ∈ g.nodeIds) (hnv : ¬ s ∈ vis) :
    unvisitedCount g (s :: vis) + 1 = unvisitedCount g vis := by
  unfold unvisitedCount
  exact filter_notmem_cons_length g.nodeIds vis s hnd hs hnv

/-! ### BFS loop lemmas -/

theorem processSuccs_keys (succs : List Str) (r : Int) (st : BfsState) :
    (processSuccs succs r st).ranks.map Prod.fst = st.ranks.map Prod.fst := by
  unfold processSuccs
  apply foldl_invariant
    (fun b : BfsState => b.ranks.map Prod.fst = st.ranks.map Prod.fst) _ _ _ rfl
  intro b s _ hb
  by_cases hv : s ∈ b.visited
  · simp only [if_pos hv]
    rw [updateRank_keys]
    exact hb
  · simp only [if_neg hv]
    exact hb

theorem processSuccs_queue (succs : List Str) (r : Int) (st : BfsState) :
    (∀ x ∈ st.visited, x ∈ (processSuccs succs r st).visited) ∧
    ∃ new, (processSuccs succs r st).queue = st.queue ++ new ∧
      ∀ e ∈ new, e.2 = r + 1 ∧ e.1 ∈ succs ∧ ¬ e.1 ∈ st.visited := by
  unfold processSuccs
  apply foldl_invariant
    (fun b : BfsState =>
      (∀ x ∈ st.visited, x ∈ b.visited) ∧
      ∃ new, b.queue = st.queue ++ new ∧
        ∀ e ∈ new, e.2 = r + 1 ∧ e.1 ∈ succs ∧ ¬ e.1 ∈ st.visited)
    _ _ _ ⟨fun x hx => hx, [], by simp, by simp⟩
  intro b s hsmem hb
  obtain ⟨hvis, new, hq, hnew⟩ := hb
  by_cases hv : s ∈ b.visited
  · simp only [if_pos hv]
    exact ⟨hvis, new, hq, hnew⟩
  · simp only [if_neg hv]
    refine ⟨fun x hx => List.mem_cons_of_mem _ (hvis x hx),
      new ++ [(s, r + 1)], ?_, ?_⟩
    · dsimp only
      rw [hq, List.append_assoc]
    · intro e he
      rcases List.mem_append.mp he with h1 | h1
      · exact hnew e h1
      · rw [List.mem_singleton] at h1
        subst h1
        exact ⟨rfl, hsmem, fun hcon => hv (hvis s hcon)⟩

theorem processSuccs_rank_mono (succs : List Str) (r : Int) (st : BfsState) (x : Str) :
    rankOf st.ranks x ≤ rankOf (processSuccs succs r st).ranks x := by
  unfold processSuccs
  apply foldl_invariant
    (fun b : BfsState => rankOf st.ranks x ≤ rankOf b.ranks x) _ _ _ (le_refl _)
  intro b s _ hb
  by_cases hv : s ∈ b.visited
  · simp only [if_pos hv]
    exact le_trans hb (rankOf_updateRank_ge s (r + 1) b.ranks x)
  · simp only [if_neg hv]
    exact hb

theorem processSuccs_measure (g : Graph) (succs : List Str) (r : Int) (st : BfsState)
    (hnd : g.nodeIds.Nodup) (hsub : ∀ s ∈ succs, s ∈ g.nodeIds) :
    2 * unvisitedCount g (processSuccs succs r st).visited
      + (processSuccs succs r st).queue.length
    ≤ 2 * unvisitedCount g st.visited + st.queue.length := by
  unfold processSuccs
  apply foldl_invariant
    (fun b : BfsState =>
      2 * unvisitedCount g b.visited + b.queue.length
        ≤ 2 * unvisitedCount g st.visited + st.queue.length) _ _ _ (le_refl _)
  intro b s hsmem hb
  by_cases hv : s ∈ b.visited
  · simp only [if_pos hv]
    exact hb
  · simp only [if_neg hv]
    have hu := unvisited_cons g b.visited s hnd (hsub s hsmem) hv
    rw [List.length_append]
    simp only [List.length_singleton]
    omega

theorem processSuccs_lookup_frozen (succs : List Str) (r : Int) (st : BfsState)
    (v : Str) (hnot : ¬ v ∈ succs) :
    (processSuccs succs r st).ranks.lookup v = st.ranks.lookup v := by
  unfold processSuccs
  apply foldl_invariant
    (fun b : BfsState => b.ranks.lookup v = st.ranks.lookup v) _ _ _ rfl
  intro b s hsmem hb
  by_cases hv : s ∈ b.visited
  · simp only [if_pos hv]
    rw [lookup_updateRank]
    rw [if_neg (fun he => hnot (by rw [he]; exact hsmem))]
    exact hb
  · simp only [if_neg hv]
    exact hb

theorem processSuccs_nonneg (succs : List Str) (r : Int) (st : BfsState)
    (hq : ∀ p ∈ st.queue, 0 ≤ p.2) (hr : ∀ p ∈ st.ranks, 0 ≤ p.2)
    (hrp : (0 : Int) ≤ r + 1) :
    (∀ p ∈ (processSuccs succs r st).queue, 0 ≤ p.2) ∧
    (∀ p ∈ (processSuccs succs r st).ranks, 0 ≤ p.2) := by
  unfold processSuccs
  apply foldl_invariant
    (fun b : BfsState =>
      (∀ p ∈ b.queue, 0 ≤ p.2) ∧ ∀ p ∈ b.ranks, 0 ≤ p.2) _ _ _ ⟨hq, hr⟩
  intro b s _ hb
  by_cases hv : s ∈ b.visited
  · simp only [if_pos hv]
    exact ⟨hb.1, updateRank_mem_val s (r + 1) b.ranks hb.2⟩
  · simp only [if_neg hv]
    refine ⟨?_, hb.2⟩
    intro p hp
    rcases List.mem_append.mp hp with h1 | h1
    · exact hb.1 p h1
    · rw [List.mem_singleton] at h1
      subst h1
      exact hrp

theorem bfsStep_eq (g : Graph) (st : BfsState) (u : Str) (r : Int)
    (rest : List (Str × Int)) (hq : st.queue = (u, r) :: rest) :
    bfsStep g st
      = processSuccs (succsOf g u) r ⟨rest, st.visited, updateRank u r st.ranks⟩ := by
  unfold bfsStep
  rw [hq]

theorem bfsStep_keys (g : Graph) (st : BfsState) :
    (bfsStep g st).ranks.map Prod.fst = st.ranks.map Prod.fst := by
  cases hq : st.queue with
  | nil =>
    unfold bfsStep
    rw [hq]
  | cons p rest =>
    cases p with
    | mk u r =>
      rw [bfsStep_eq g st u r rest hq, processSuccs_keys]
      exact updateRank_keys u r st.ranks

theorem bfsRun_keys (g : Graph) (fuel : Nat) :
    ∀ st : BfsState, (bfsRun g fuel st).ranks.map Prod.fst = st.ranks.map Prod.fst := by
  induction fuel with
  | zero => intro st; rfl
  | succ f ih =>
    intro st
    unfold bfsRun
    by_cases hq : st.queue = []
    · rw [if_pos hq]
    · rw [if_neg hq, ih (bfsStep g st), bfsStep_keys]

theorem bfsStep_rank_mono (g : Graph) (st : BfsState) (x : Str) :
    rankOf st.ranks x ≤ rankOf (bfsStep g st).ranks x := by
  cases hq : st.queue with
  | nil =>
    unfold bfsStep
    rw [hq]
  | cons p rest =>
    cases p with
    | mk u r =>
      rw [bfsStep_eq g st u r rest hq]
      refine le_trans ?_ (processSuccs_rank_mono (succsOf g u) r _ x)
      exact rankOf_updateRank_ge u r st.ranks x

theorem bfsRun_rank_mono (g : Graph) (fuel : Nat) :
    ∀ (st : BfsState) (x : Str),
      rankOf st.ranks x ≤ rankOf (bfsRun g fuel st).ranks x := by
  induction fuel with
  | zero => intro st x; exact le_refl _
  | succ f ih =>
    intro st x
    unfold bfsRun
    by_cases hq : st.queue = []
    · rw [if_pos hq]
    · rw [if_neg hq]
      exact le_trans (bfsStep_rank_mono g st x) (ih (bfsStep g st) x)

theorem bfsRun_drain (g : Graph) (hwf : WfGraph g) (fuel : Nat) :
    ∀ st : BfsState, bfsMeasure g st ≤ fuel → (bfsRun g fuel st).queue = [] := by
  induction fuel with
  | zero =>
    intro st h
    unfold bfsMeasure at h
    have hz : st.queue.length = 0 := by omega
    exact List.eq_nil_of_length_eq_zero hz
  | succ f ih =>
    intro st h
    unfold bfsRun
    by_cases hq : st.queue = []
    · rw [if_pos hq]; exact hq
    · rw [if_neg hq]
      apply ih
      cases hqe : st.queue with
      | nil => exact absurd hqe hq
      | cons p rest =>
        cases p with
        | mk u r =>
          rw [bfsStep_eq g st u r rest hqe]
          have hmeas := processSuccs_measure g (succsOf g u) r
            ⟨rest, st.visited, updateRank u r st.ranks⟩ hwf.1
            (fun s hs => succsOf_closed g hwf u s hs)
          unfold bfsMeasure at h ⊢
          rw [hqe] at h
          simp only [List.length_cons] at h
          dsimp only at hmeas
          omega

theorem bfsStep_enqueue (g : Graph) (st : BfsState) (u : Str) (r : Int)
    (rest : List (Str × Int)) (hq : st.queue = (u, r) :: rest) :
    ∃ new, (bfsStep g st).queue = rest ++ new ∧
      ∀ e ∈ new, e.2 = r + 1 ∧ e.1 ∈ succsOf g u ∧ ¬ e.1 ∈ st.visited := by
  rw [bfsStep_eq g st u r rest hq]
  obtain ⟨_, new, hqs, hnew⟩ :=
    processSuccs_queue (succsOf g u) r ⟨rest, st.visited, updateRank u r st.ranks⟩
  exact ⟨new, hqs, hnew⟩

theorem bfsStep_inv (g : Graph) (hwf : WfGraph g) (st : BfsState)
    (u : Str) (r : Int) (rest : List (Str × Int)) (hq : st.queue = (u, r) :: rest)
    (h1 : ∀ p ∈ st.queue, p.1 ∈ g.nodeIds)
    (h2 : ∀ p ∈ st.queue, Reaches g p.1)
    (h3 : ∀ p ∈ st.queue, isolatedIn g p.1 → p.2 = 0)
    (h4 : ∀ p ∈ st.queue, 0 ≤ p.2)
    (h5 : ∀ p ∈ st.ranks, 0 ≤ p.2)
    (h6 : ∀ v, ¬ Reaches g v →
      st.ranks.lookup v = (g.nodeIds.map fun w => (w, (0 : Int))).lookup v)
    (h7 : ∀ v, isolatedIn g v →
      st.ranks.lookup v = (g.nodeIds.map fun w => (w, (0 : Int))).lookup v) :
    (∀ p ∈ (bfsStep g st).queue, p.1 ∈ g.nodeIds) ∧
    (∀ p ∈ (bfsStep g st).queue, Reaches g p.1) ∧
    (∀ p ∈ (bfsStep g st).queue, isolatedIn g p.1 → p.2 = 0) ∧
    (∀ p ∈ (bfsStep g st).queue, 0 ≤ p.2) ∧
    (∀ p ∈ (bfsStep g st).ranks, 0 ≤ p.2) ∧
    (∀ v, ¬ Reaches g v →
      (bfsStep g st).ranks.lookup v
        = (g.nodeIds.map fun w => (w, (0 : Int))).lookup v) ∧
    (∀ v, isolatedIn g v →
      (bfsStep g st).ranks.lookup v
        = (g.nodeIds.map fun w => (w, (0 : Int))).lookup v) := by
  have hu_mem : (u, r) ∈ st.queue := by rw [hq]; exact List.mem_cons_self _ _
  have hu_node : u ∈ g.nodeIds := h1 (u, r) hu_mem
  have hu_reach : Reaches g u := h2 (u, r) hu_mem
  have hu_nonneg : (0 : Int) ≤ r := h4 (u, r) hu_mem
  rw [bfsStep_eq g st u r rest hq]
  obtain ⟨hvis, new, hqs, hnew⟩ :=
    processSuccs_queue (succsOf g u) r ⟨rest, st.visited, updateRank u r st.ranks⟩
  have hrest_mem : ∀ p ∈ rest, p ∈ st.queue := by
    intro p hp; rw [hq]; exact List.mem_cons_of_mem _ hp
  have hqmem : ∀ p ∈ (processSuccs (succsOf g u) r
      ⟨rest, st.visited, updateRank u r st.ranks⟩).queue,
      p ∈ rest ∨ (p.2 = r + 1 ∧ p.1 ∈ succsOf g u) := by
    intro p hp
    rw [hqs] at hp
    rcases List.mem_append.mp hp with hp1 | hp1
    · exact Or.inl hp1
    · obtain ⟨he, hs, _⟩ := hnew p hp1
      exact Or.inr ⟨he, hs⟩
  have hnn := processSuccs_nonneg (succsOf g u) r
    ⟨rest, st.visited, updateRank u r st.ranks⟩
    (fun p hp => h4 p (hrest_mem p hp))
    (updateRank_mem_val u r st.ranks h5)
    (by omega)
  refine ⟨?_, ?_, ?_, ?_, hnn.2, ?_, ?_⟩
  · intro p hp
    rcases hqmem p hp with hp1 | ⟨_, hp2⟩
    · exact h1 p (hrest_mem p hp1)
    · exact succsOf_closed g hwf u p.1 hp2
  · intro p hp
    rcases hqmem p hp with hp1 | ⟨_, hp2⟩
    · exact h2 p (hrest_mem p hp1)
    · exact Reaches.succ u p.1 hu_reach hp2
  · intro p hp hiso
    rcases hqmem p hp with hp1 | ⟨_, hp2⟩
    · exact h3 p (hrest_mem p hp1) hiso
    · exact absurd hiso (succsOf_not_isolated g u p.1 hp2)
  · exact hnn.1
  · intro v hv
    have hvnot : ¬ v ∈ succsOf g u := by
      intro hvin
      exact hv (Reaches.succ u v hu_reach hvin)
    rw [processSuccs_lookup_frozen (succsOf g u) r _ v hvnot]
    have hvu : ¬ v = u := by
      intro he; rw [he] at hv; exact hv hu_reach
    show (updateRank u r st.ranks).lookup v = _
    rw [lookup_updateRank, if_neg hvu]
    exact h6 v hv
  · intro v hv
    have hvnot : ¬ v ∈ succsOf g u := by
      intro hvin
      exact succsOf_not_isolated g u v hvin hv
    rw [processSuccs_lookup_frozen (succsOf g u) r _ v hvnot]
    show (updateRank u r st.ranks).lookup v = _
    rw [lookup_updateRank]
    by_cases hvu : v = u
    · rw [if_pos hvu]
      subst hvu
      have hr0 : r = 0 := h3 (v, r) hu_mem hv
      subst hr0
      rw [h7 v hv, lookup_map_pair g.nodeIds v 0 hu_node]
      simp
    · rw [if_neg hvu]
      exact h7 v hv

theorem bfsRun_inv (g : Graph) (hwf : WfGraph g) (fuel : Nat) :
    ∀ st : BfsState,
    (∀ p ∈ st.queue, p.1 ∈ g.nodeIds) →
    (∀ p ∈ st.queue, Reaches g p.1) →
    (∀ p ∈ st.queue, isolatedIn g p.1 → p.2 = 0) →
    (∀ p ∈ st.queue, 0 ≤ p.2) →
    (∀ p ∈ st.ranks, 0 ≤ p.2) →
    (∀ v, ¬ Reaches g v →
      st.ranks.lookup v = (g.nodeIds.map fun w => (w, (0 : Int))).lookup v) →
    (∀ v, isolatedIn g v →
      st.ranks.lookup v = (g.nodeIds.map fun w => (w, (0 : Int))).lookup v) →
    (∀ p ∈ (bfsRun g fuel st).ranks, 0 ≤ p.2) ∧
    (∀ v, ¬ Reaches g v →
      (bfsRun g fuel st).ranks.lookup v
        = (g.nodeIds.map fun w => (w, (0 : Int))).lookup v) ∧
    (∀ v, isolatedIn g v →
      (bfsRun g fuel st).ranks.lookup v
        = (g.nodeIds.map fun w => (w, (0 : Int))).lookup v) := by
  induction fuel with
  | zero =>
    intro st _ _ _ _ h5 h6 h7
    exact ⟨h5, h6, h7⟩
  | succ f ih =>
    intro st h1 h2 h3 h4 h5 h6 h7
    unfold bfsRun
    by_cases hq : st.queue = []
    · rw [if_pos hq]
      exact ⟨h5, h6, h7⟩
    · rw [if_neg hq]
      cases hqe : st.queue with
      | nil => exact absurd hqe hq
      | cons p rest =>
        cases p with
        | mk u r =>
          obtain ⟨g1, g2, g3, g4, g5, g6, g7⟩ :=
            bfsStep_inv g hwf st u r rest hqe h1 h2 h3 h4 h5 h6 h7
          exact ih (bfsStep g st) g1 g2 g3 g4 g5 g6 g7

theorem bfsRun_queue_bound (g : Graph) (hwf : WfGraph g) (fuel : Nat) :
    ∀ st : BfsState, bfsMeasure g st ≤ fuel →
      (∀ p ∈ st.queue, p.1 ∈ g.nodeIds) →
      st.ranks.map Prod.fst = g.nodeIds →
      ∀ p ∈ st.queue, p.2 ≤ rankOf (bfsRun g fuel st).ranks p.1 := by
  induction fuel with
  | zero =>
    intro st hm _ _ p hp
    unfold bfsMeasure at hm
    have hz : st.queue.length = 0 := by omega
    rw [List.eq_nil_of_length_eq_zero hz] at hp
    simp at hp
  | succ f ih =>
    intro st hm h1 hkeys p hp
    unfold bfsRun
    have hq : ¬ st.queue = [] := by
      intro he; rw [he] at hp; simp at hp
    rw [if_neg hq]
    cases hqe : st.queue with
    | nil => exact absurd hqe hq
    | cons p0 rest =>
      cases p0 with
      | mk u r =>
        obtain ⟨new, hqs, hnew⟩ := bfsStep_enqueue g st u r rest hqe
        have hmeas : bfsMeasure g (bfsStep g st) ≤ f := by
          rw [bfsStep_eq g st u r rest hqe]
          have hm2 := processSuccs_measure g (succsOf g u) r
            ⟨rest, st.visited, updateRank u r st.ranks⟩ hwf.1
            (fun s hs => succsOf_closed g hwf u s hs)
          unfold bfsMeasure at hm ⊢
          rw [hqe] at hm
          simp only [List.length_cons] at hm
          dsimp only at hm2
          omega
        have hkeys2 : (bfsStep g st).ranks.map Prod.fst = g.nodeIds := by
          rw [bfsStep_keys]; exact hkeys
        have h1' : ∀ q ∈ (bfsStep g st).queue, q.1 ∈ g.nodeIds := by
          intro q hqmem
          rw [hqs] at hqmem
          rcases List.mem_append.mp hqmem with hq1 | hq1
          · exact h1 q (by rw [hqe]; exact List.mem_cons_of_mem _ hq1)
          · obtain ⟨_, hs, _⟩ := hnew q hq1
            exact succsOf_closed g hwf u q.1 hs
        rw [hqe] at hp
        rcases List.mem_cons.mp hp with hphead | hptail
        · rw [hphead]
          have hlk : ((bfsStep g st).ranks.lookup u).isSome = true := by
            rw [lookup_isSome_iff, hkeys2]
            exact h1 (u, r) (by rw [hqe]; exact List.mem_cons_self _ _)
          have hstep : r ≤ rankOf (bfsStep g st).ranks u := by
            rw [bfsStep_eq g st u r rest hqe]
            refine le_trans ?_ (processSuccs_rank_mono (succsOf g u) r _ u)
            apply rankOf_updateRank_self
            rw [lookup_isSome_iff, hkeys]
            exact h1 (u, r) (by rw [hqe]; exact List.mem_cons_self _ _)
          exact le_trans hstep (bfsRun_rank_mono g f (bfsStep g st) u)
        · have hpmem : p ∈ (bfsStep g st).queue := by
            rw [hqs]
            exact List.mem_append.mpr (Or.inl hptail)
          exact ih (bfsStep g st) hmeas h1' hkeys2 p hpmem

theorem lookup_val_nonneg (l : List (Str × Int)) (v : Str) (x : Int)
    (hall : ∀ p ∈ l, 0 ≤ p.2) (h : l.lookup v = some x) : 0 ≤ x := by
  induction l with
  | nil => simp at h
  | cons p t ih =>
    cases p with
    | mk k q =>
      by_cases hv : v = k
      · have hbeq : (v == k) = true := by simp [hv]
        simp only [List.lookup_cons, hbeq] at h
        have hq := hall (k, q) (List.mem_cons_self _ _)
        rw [Option.some.inj h] at hq
        exact hq
      · have hbeq : (v == k) = false := by simp [hv]
        simp only [List.lookup_cons, hbeq] at h
        exact ih (fun p hp => hall p (List.mem_cons_of_mem _ hp)) h

theorem initState_measure (g : Graph) :
    bfsMeasure g (initState g) ≤ 3 * g.nodeIds.length := by
  unfold bfsMeasure initState unvisitedCount
  dsimp only
  have hfil : (g.nodeIds.filter fun v => decide (¬ v ∈ sourcesOf g)).length
      ≤ g.nodeIds.length := List.length_filter_le _ _
  have hsrc : ((sourcesOf g).map fun v => (v, (0 : Int))).length
      ≤ g.nodeIds.length := by
    rw [List.length_map]
    unfold sourcesOf
    exact List.length_filter_le _ _
  omega

theorem initState_inv (g : Graph) :
    (∀ p ∈ (initState g).queue, p.1 ∈ g.nodeIds) ∧
    (∀ p ∈ (initState g).queue, Reaches g p.1) ∧
    (∀ p ∈ (initState g).queue, isolatedIn g p.1 → p.2 = 0) ∧
    (∀ p ∈ (initState g).queue, 0 ≤ p.2) ∧
    (∀ p ∈ (initState g).ranks, 0 ≤ p.2) ∧
    (initState g).ranks.map Prod.fst = g.nodeIds := by
  have hqmem : ∀ p ∈ (initState g).queue, p.1 ∈ sourcesOf g ∧ p.2 = 0 := by
    intro p hp
    unfold initState at hp
    dsimp only at hp
    rw [List.mem_map] at hp
    obtain ⟨v, hv, hpv⟩ := hp
    rw [← hpv]
    exact ⟨hv, rfl⟩
  refine ⟨?_, ?_, ?_, ?_, ?_, ?_⟩
  · intro p hp
    exact sourcesOf_subset g p.1 (hqmem p hp).1
  · intro p hp
    exact Reaches.source p.1 (hqmem p hp).1
  · intro p hp _
    exact (hqmem p hp).2
  · intro p hp
    rw [(hqmem p hp).2]
  · intro p hp
    unfold initState at hp
    dsimp only at hp
    rw [List.mem_map] at hp
    obtain ⟨v, _, hpv⟩ := hp
    rw [← hpv]
  · unfold initState
    dsimp only
    rw [List.map_map]
    exact List.map_id g.nodeIds

theorem layoutRanks_eq (nodes : List NodeIn) (edges : List EdgeIn) :
    layoutRanks nodes edges
      = (bfsRun (buildGraph nodes edges)
          (3 * (buildGraph nodes edges).nodeIds.length)
          (initState (buildGraph nodes edges))).ranks := rfl

theorem layoutRanks_total (nodes : List NodeIn) (edges : List EdgeIn) :
    ∀ v ∈ (buildGraph nodes edges).nodeIds,
      ∃ rk, (layoutRanks nodes edges).lookup v = some rk ∧ 0 ≤ rk := by
  intro v hv
  have hwf := buildGraph_wf nodes edges
  obtain ⟨i1, i2, i3, i4, i5, i6⟩ := initState_inv (buildGraph nodes edges)
  have hkeys := bfsRun_keys (buildGraph nodes edges)
    (3 * (buildGraph nodes edges).nodeIds.length) (initState (buildGraph nodes edges))
  rw [i6] at hkeys
  have hsome : ((layoutRanks nodes edges).lookup v).isSome = true := by
    rw [layoutRanks_eq, lookup_isSome_iff, hkeys]
    exact hv
  obtain ⟨rk, hrk⟩ := Option.isSome_iff_exists.mp hsome
  refine ⟨rk, hrk, ?_⟩
  have hnn := (bfsRun_inv (buildGraph nodes edges) hwf
    (3 * (buildGraph nodes edges).nodeIds.length) (initState (buildGraph nodes edges))
    i1 i2 i3 i4 i5 (fun _ _ => rfl) (fun _ _ => rfl)).1
  rw [layoutRanks_eq] at hrk
  exact lookup_val_nonneg _ v rk hnn hrk

theorem layoutRanks_unreached (nodes : List NodeIn) (edges : List EdgeIn) :
    ∀ v ∈ (buildGraph nodes edges).nodeIds,
      ¬ Reaches (buildGraph nodes edges) v →
      (layoutRanks nodes edges).lookup v = some 0 := by
  intro v hv hnr
  have hwf := buildGraph_wf nodes edges
  obtain ⟨i1, i2, i3, i4, i5, _⟩ := initState_inv (buildGraph nodes edges)
  have hfr := (bfsRun_inv (buildGraph nodes edges) hwf
    (3 * (buildGraph nodes edges).nodeIds.length) (initState (buildGraph nodes edges))
    i1 i2 i3 i4 i5 (fun _ _ => rfl) (fun _ _ => rfl)).2.1
  rw [layoutRanks_eq, hfr v hnr]
  exact lookup_map_pair _ v 0 hv

theorem layoutRanks_isolated (nodes : List NodeIn) (edges : List EdgeIn) :
    ∀ v ∈ (buildGraph nodes edges).nodeIds,
      isolatedIn (buildGraph nodes edges) v →
      (layoutRanks nodes edges).lookup v = some 0 := by
  intro v hv hiso
  have hwf := buildGraph_wf nodes edges
  obtain ⟨i1, i2, i3, i4, i5, _⟩ := initState_inv (buildGraph nodes edges)
  have hfr := (bfsRun_inv (buildGraph nodes edges) hwf
    (3 * (buildGraph nodes edges).nodeIds.length) (initState (buildGraph nodes edges))
    i1 i2 i3 i4 i5 (fun _ _ => rfl) (fun _ _ => rfl)).2.2
  rw [layoutRanks_eq, hfr v hiso]
  exact lookup_map_pair _ v 0 hv

/-! ### Layout sizing lemmas -/

theorem foldl_max_scaled (c : ℚ) (hc : 0 ≤ c) :
    ∀ (L : List Str) (a : ℚ), 0 ≤ a →
      L.foldl (fun acc line => max acc ((line.length : ℚ) * c)) a
        = max a ((((L.map List.length).foldr max 0 : ℕ) : ℚ) * c) := by
  intro L
  induction L with
  | nil =>
    intro a ha
    simp only [List.foldl_nil, List.map_nil, List.foldr_nil, Nat.cast_zero, zero_mul]
    exact (max_eq_left ha).symm
  | cons l ls ih =>
    intro a ha
    simp only [List.foldl_cons, List.map_cons, List.foldr_cons]
    rw [ih (max a ((l.length : ℚ) * c)) (le_trans ha (le_max_left _ _))]
    rw [Nat.cast_max, max_mul_of_nonneg _ _ hc, max_assoc]

theorem textWidthOf_eq (label : Str) :
    textWidthOf label
      = ((((splitOnBr label).map List.length).foldr max 0 : ℕ) : ℚ)
          * DEFAULT_CHAR_WIDTH_ESTIMATE := by
  unfold textWidthOf
  rw [foldl_max_scaled DEFAULT_CHAR_WIDTH_ESTIMATE (by norm_num [DEFAULT_CHAR_WIDTH_ESTIMATE])
    (splitOnBr label) 0 (le_refl 0)]
  apply max_eq_right
  rw [show DEFAULT_CHAR_WIDTH_ESTIMATE = (25 : ℚ) from rfl]
  positivity

theorem calcWidth_eq (label : Str) :
    calcWidth label
      = ((((splitOnBr label).map List.length).foldr max 0 : ℕ) : ℚ)
          * DEFAULT_CHAR_WIDTH_ESTIMATE * SAFETY_FACTOR_WIDTH
        + PADDING_WIDTH * SAFETY_FACTOR_WIDTH := by
  unfold calcWidth
  rw [textWidthOf_eq]
  ring

theorem calcWidth_pos (label : Str) : 0 < calcWidth label := by
  unfold calcWidth
  have h1 : 0 ≤ textWidthOf label := by
    rw [textWidthOf_eq, show DEFAULT_CHAR_WIDTH_ESTIMATE = (25 : ℚ) from rfl]
    positivity
  rw [show PADDING_WIDTH = (150 : ℚ) from rfl, show SAFETY_FACTOR_WIDTH = (6 / 5 : ℚ) from rfl]
  nlinarith

theorem calcHeight_pos (label : Str) : 0 < calcHeight label := by
  unfold calcHeight
  have h1 : 1 ≤ (splitOnBr label).length := by
    cases hsp : splitOnBr label with
    | nil => exact absurd hsp (splitOnBr_ne_nil label)
    | cons a b => simp
  have h2 : (1 : ℚ) ≤ ((splitOnBr label).length : ℕ) := by
    exact_mod_cast h1
  rw [show DEFAULT_LINE_HEIGHT_ESTIMATE = (40 : ℚ) from rfl,
    show PADDING_HEIGHT = (80 : ℚ) from rfl,
    show SAFETY_FACTOR_HEIGHT = (6 / 5 : ℚ) from rfl]
  nlinarith

theorem attachPositions_fields (entries : List (Str × Pos)) :
    ∀ (ns : List NodeOut) (seen : List Str),
      ∀ m ∈ attachPositions entries seen ns,
        ∃ n0 ∈ ns, m.id = n0.id ∧ m.label = n0.label
          ∧ m.calculated_width = n0.calculated_width
          ∧ m.calculated_height = n0.calculated_height := by
  intro ns
  induction ns with
  | nil => intro seen m hm; simp [attachPositions] at hm
  | cons n rest ih =>
    intro seen m hm
    rw [show attachPositions entries seen (n :: rest)
        = { n with position := if n.id ∈ seen then none else entries.lookup n.id }
          :: attachPositions entries (n.id :: seen) rest from rfl] at hm
    rcases List.mem_cons.mp hm with h1 | h1
    · subst h1
      exact ⟨n, List.mem_cons_self _ _, rfl, rfl, rfl, rfl⟩
    · obtain ⟨n0, hn0, hf⟩ := ih (n.id :: seen) m h1
      exact ⟨n0, List.mem_cons_of_mem _ hn0, hf⟩

theorem layout_graph_dims (nodes : List NodeIn) (edges : List EdgeIn) :
    ∀ m ∈ (layout_graph nodes edges).1,
      m.calculated_width = calcWidth m.label
        ∧ m.calculated_height = calcHeight m.label := by
  intro m hm
  have hm2 : m ∈ attachPositions
      (positionEntries (nodes.map withDims) (layoutRanks nodes edges)) []
      (nodes.map withDims) := hm
  obtain ⟨n0, hn0, hid, hlab, hw, hh⟩ :=
    attachPositions_fields _ (nodes.map withDims) [] m hm2
  rw [List.mem_map] at hn0
  obtain ⟨n, _, hn⟩ := hn0
  rw [← hn] at hid hlab hw hh
  unfold withDims at hid hlab hw hh
  dsimp only at hid hlab hw hh
  rw [hw, hh, hlab]
  exact ⟨rfl, rfl⟩

/-! ### Position entry lemmas -/

theorem lookup_isSome_iff_gen {β : Type} (l : List (Str × β)) (v : Str) :
    (l.lookup v).isSome = true ↔ v ∈ l.map Prod.fst := by
  induction l with
  | nil =>
    rw [show (([] : List (Str × β)).lookup v) = none from rfl]
    constructor
    · intro h
      exact absurd h Bool.false_ne_true
    · intro h
      rw [List.map_nil] at h
      exact absurd h (List.not_mem_nil v)
  | cons p t ih =>
    cases p with
    | mk k q =>
      by_cases hv : v = k
      · have hbeq : (v == k) = true := by simp [hv]
        simp only [List.lookup_cons, hbeq, List.map_cons, List.mem_cons]
        constructor
        · intro _
          exact Or.inl hv
        · intro _
          rfl
      · have hbeq : (v == k) = false := by simp [hv]
        simp only [List.lookup_cons, hbeq, List.map_cons, List.mem_cons]
        rw [ih]
        constructor
        · exact fun h => Or.inr h
        · intro h
          rcases h with h | h
          · exact absurd h hv
          · exact h

theorem lookup_mem (l : List (Str × Int)) (v : Str) (x : Int)
    (h : l.lookup v = some x) : (v, x) ∈ l := by
  induction l with
  | nil => simp at h
  | cons p t ih =>
    cases p with
    | mk k q =>
      by_cases hv : v = k
      · have hbeq : (v == k) = true := by simp [hv]
        simp only [List.lookup_cons, hbeq] at h
        rw [hv, Option.some.inj h]
        exact List.mem_cons_self _ _
      · have hbeq : (v == k) = false := by simp [hv]
        simp only [List.lookup_cons, hbeq] at h
        exact List.mem_cons_of_mem _ (ih h)

theorem foldl_addIfAbsent_mono {α : Type} [DecidableEq α] (l : List α) :
    ∀ (acc : List α) (y : α), y ∈ acc → y ∈ l.foldl addIfAbsent acc := by
  induction l with
  | nil => intro acc y hy; exact hy
  | cons a t ih =>
    intro acc y hy
    exact ih (addIfAbsent acc a) y (mem_addIfAbsent_of_mem acc a y hy)

theorem mem_foldl_addIfAbsent {α : Type} [DecidableEq α] (l : List α) (x : α) :
    ∀ acc : List α, x ∈ l → x ∈ l.foldl addIfAbsent acc := by
  induction l with
  | nil => intro acc hx; simp at hx
  | cons a t ih =>
    intro acc hx
    rcases List.mem_cons.mp hx with h1 | h1
    · subst h1
      exact foldl_addIfAbsent_mono t (addIfAbsent acc x) x (mem_addIfAbsent_self acc x)
    · exact ih (addIfAbsent acc a) h1

theorem node_id_mem_buildGraph (nodes : List NodeIn) (edges : List EdgeIn)
    (n : NodeIn) (hn : n ∈ nodes) :
    n.id ∈ (buildGraph nodes edges).nodeIds := by
  unfold buildGraph
  have hids0 : n.id ∈ nodes.foldl (fun acc m => addIfAbsent acc m.id) [] := by
    rw [← List.foldl_map NodeIn.id addIfAbsent nodes []]
    exact mem_foldl_addIfAbsent (nodes.map NodeIn.id) n.id [] (List.mem_map_of_mem _ hn)
  apply foldl_invariant
    (fun acc : List Str × List (Str × Str) => n.id ∈ acc.1) _ _ _ hids0
  intro b e _ hb
  exact mem_addIfAbsent_of_mem _ _ _ (mem_addIfAbsent_of_mem _ _ _ hb)

theorem mem_rankGroup (ranks : List (Str × Int)) (v : Str) (r : Int)
    (h : (v, r) ∈ ranks) : v ∈ rankGroup ranks r := by
  unfold rankGroup
  rw [List.mem_map]
  refine ⟨(v, r), ?_, rfl⟩
  rw [List.mem_filter]
  exact ⟨h, by simp⟩

theorem mem_sortedRankKeys (ranks : List (Str × Int)) (v : Str) (r : Int)
    (h : (v, r) ∈ ranks) : r ∈ sortedRankKeys ranks := by
  unfold sortedRankKeys
  rw [(List.perm_insertionSort _ (rankValues ranks)).mem_iff]
  unfold rankValues
  exact mem_foldl_addIfAbsent _ r [] (by
    rw [List.mem_map]
    exact ⟨(v, r), h, rfl⟩)

theorem groupFold_keys (nodes1 : List NodeOut) (y : ℚ) :
    ∀ (group : List Str) (x0 : ℚ) (acc : List (Str × Pos)),
      ((group.foldl
        (fun (a : ℚ × List (Str × Pos)) v =>
          match findNode nodes1 v with
          | none => a
          | some n =>
            (a.1 + n.calculated_width + x_spacing,
             a.2 ++ [(v, ⟨a.1, y, n.calculated_width, n.calculated_height⟩)]))
        (x0, acc)).2).map Prod.fst
      = acc.map Prod.fst
        ++ group.filter fun v => (findNode nodes1 v).isSome := by
  intro group
  induction group with
  | nil => intro x0 acc; simp
  | cons v0 rest ih =>
    intro x0 acc
    rw [List.foldl_cons, List.filter_cons]
    cases hfind : findNode nodes1 v0 with
    | none =>
      dsimp only
      rw [ih x0 acc]
      simp
    | some n =>
      dsimp only
      rw [ih]
      rw [List.map_append]
      simp

theorem groupEntries_keys (nodes1 : List NodeOut) (r : Int) (group : List Str) :
    (groupEntries nodes1 r group).map Prod.fst
      = group.filter fun v => (findNode nodes1 v).isSome := by
  unfold groupEntries
  rw [groupFold_keys]
  simp

theorem positionEntries_keys (nodes1 : List NodeOut) (ranks : List (Str × Int)) :
    (positionEntries nodes1 ranks).map Prod.fst
      = (sortedRankKeys ranks).flatMap fun r =>
          ((rankGroup ranks r).insertionSort fun a b => !(strLtB b a)).filter
            fun v => (findNode nodes1 v).isSome := by
  unfold positionEntries
  rw [List.map_flatMap]
  congr 1
  funext r
  exact groupEntries_keys nodes1 r _

theorem positionEntries_lookup_isSome (nodes1 : List NodeOut)
    (ranks : List (Str × Int)) (v : Str) (rk : Int)
    (hrk : (v, rk) ∈ ranks) (hfind : (findNode nodes1 v).isSome = true) :
    ((positionEntries nodes1 ranks).lookup v).isSome = true := by
  rw [lookup_isSome_iff_gen, positionEntries_keys]
  rw [List.mem_flatMap]
  refine ⟨rk, mem_sortedRankKeys ranks v rk hrk, ?_⟩
  rw [List.mem_filter]
  refine ⟨?_, hfind⟩
  rw [(List.perm_insertionSort _ (rankGroup ranks rk)).mem_iff]
  exact mem_rankGroup ranks v rk hrk

theorem positionEntries_lookup_none (nodes1 : List NodeOut)
    (ranks : List (Str × Int)) (v : Str)
    (hfind : findNode nodes1 v = none) :
    (positionEntries nodes1 ranks).lookup v = none := by
  rw [← Option.not_isSome_iff_eq_none]
  rw [lookup_isSome_iff_gen, positionEntries_keys]
  intro hmem
  rw [List.mem_flatMap] at hmem
  obtain ⟨r, _, hfil⟩ := hmem
  rw [List.mem_filter] at hfil
  rw [hfind] at hfil
  simp at hfil

theorem attachPositions_position (entries : List (Str × Pos)) :
    ∀ (ns : List NodeOut) (seen : List Str),
      (ns.map NodeOut.id).Nodup →
      (∀ n ∈ ns, ¬ n.id ∈ seen) →
      ∀ m ∈ attachPositions entries seen ns,
        m.position = entries.lookup m.id := by
  intro ns
  induction ns with
  | nil =>
    intro seen _ _ m hm
    simp [attachPositions] at hm
  | cons n rest ih =>
    intro seen hnd hseen m hm
    rw [show attachPositions entries seen (n :: rest)
        = { n with position := if n.id ∈ seen then none else entries.lookup n.id }
          :: attachPositions entries (n.id :: seen) rest from rfl] at hm
    rcases List.mem_cons.mp hm with h1 | h1
    · subst h1
      dsimp only
      rw [if_neg (hseen n (List.mem_cons_self _ _))]
    · have hndr : (rest.map NodeOut.id).Nodup := (List.nodup_cons.mp hnd).2
      have hnid : ¬ n.id ∈ rest.map NodeOut.id := (List.nodup_cons.mp hnd).1
      refine ih (n.id :: seen) hndr ?_ m h1
      intro n2 hn2
      rw [List.mem_cons]
      intro hcon
      rcases hcon with hc | hc
      · exact hnid (hc ▸ List.mem_map_of_mem NodeOut.id hn2)
      · exact hseen n2 (List.mem_cons_of_mem _ hn2) hc

theorem layout_graph_positions (nodes : List NodeIn) (edges : List EdgeIn)
    (hnd : (nodes.map NodeIn.id).Nodup) :
    ∀ m ∈ (layout_graph nodes edges).1, m.position.isSome = true := by
  intro m hm
  have hm2 : m ∈ attachPositions
      (positionEntries (nodes.map withDims) (layoutRanks nodes edges)) []
      (nodes.map withDims) := hm
  have hmap : (nodes.map withDims).map NodeOut.id = nodes.map NodeIn.id := by
    rw [List.map_map]; rfl
  have hpos := attachPositions_position
    (positionEntries (nodes.map withDims) (layoutRanks nodes edges))
    (nodes.map withDims) [] (by rw [hmap]; exact hnd) (by simp) m hm2
  rw [hpos]
  obtain ⟨n0, hn0, hid, _, _, _⟩ := attachPositions_fields _ (nodes.map withDims) [] m hm2
  rw [List.mem_map] at hn0
  obtain ⟨n, hn, hwd⟩ := hn0
  have hidn : m.id = n.id := by rw [hid, ← hwd]; rfl
  obtain ⟨rk, hrk, _⟩ := layoutRanks_total nodes edges n.id
    (node_id_mem_buildGraph nodes edges n hn)
  have hfind : (findNode (nodes.map withDims) n.id).isSome = true := by
    rw [findNode, List.find?_isSome]
    exact ⟨withDims n, List.mem_map_of_mem _ hn, by simp [withDims]⟩
  rw [hidn]
  exact positionEntries_lookup_isSome _ _ n.id rk (lookup_mem _ _ _ hrk) hfind

theorem layout_positionEntries_skip (nodes : List NodeIn) (edges : List EdgeIn)
    (v : Str) (hv : ¬ v ∈ nodes.map NodeIn.id) :
    (positionEntries (nodes.map withDims) (layoutRanks nodes edges)).lookup v
      = none := by
  apply positionEntries_lookup_none
  rw [findNode, List.find?_eq_none]
  intro x hx
  rw [List.mem_map] at hx
  obtain ⟨n, hn, hxn⟩ := hx
  rw [← hxn]
  simp only [withDims, decide_eq_true_eq]
  intro hcon
  exact hv (hcon ▸ List.mem_map_of_mem NodeIn.id hn)

/-! ### Claims -/

/-- C1 counterexample: a single diamond-shaped node with a bracket-free
label and no edges is a non-empty node list whose synthesized diagram the
validator rejects, because the diamond line contains none of the markers
the validator recognizes. -/
theorem C1_counterexample :
    diamondOnlyNodes ≠ [] ∧
    is_valid_mermaid (generate_mermaid_diagram diamondOnlyNodes []) = false := by
  constructor
  · decide
  · decide

/-- C1 (amended): for every node list and edge list, if some node has a
shape other than diamond, or at least one edge is present, then
`is_valid_mermaid` accepts the output of `generate_mermaid_diagram`; the
original claim over all non-empty node lists fails on all-diamond,
edge-free inputs. -/
theorem C1_validator_soundness_amended (nodes : List NodeIn) (edges : List EdgeIn)
    (_hne : nodes ≠ [])
    (h : (∃ n ∈ nodes, nodeShape n ≠ "diamond".toList) ∨ edges ≠ []) :
    is_valid_mermaid (generate_mermaid_diagram nodes edges) = true :=
  generate_valid_of_shape_or_edge nodes edges h

/-- C1 witness: the amended theorem applied to the Scenario A input. -/
theorem C1_witness :
    is_valid_mermaid (generate_mermaid_diagram scenarioNodes scenarioEdges) = true :=
  C1_validator_soundness_amended scenarioNodes scenarioEdges (by decide)
    (Or.inr (by decide))

/-- C2: the escaped text of every wrapped label contains no bracket
character that is not consumed by a preceding backslash and no angle
bracket outside the line-break marker; the per-character equations show
the fixed substitution order and that later substitutions never re-escape
the characters introduced by earlier ones. -/
theorem C2_escaping_completeness (label : Str) :
    hasUnescapedBracket
      (escapeLabel (wrap_text_with_br label MAX_CHARS_PER_LINE)) = false ∧
    hasStrayAngle
      (escapeLabel (wrap_text_with_br label MAX_CHARS_PER_LINE)) = false ∧
    escapeLabel ['\\'] = ['\\', '\\'] ∧
    escapeLabel ['['] = ['\\', '['] ∧ escapeLabel [']'] = ['\\', ']'] ∧
    escapeLabel ['{'] = ['\\', '{'] ∧ escapeLabel ['}'] = ['\\', '}'] ∧
    escapeLabel ['('] = ['\\', '('] ∧ escapeLabel [')'] = ['\\', ')'] ∧
    escapeLabel ['<'] = ['&', 'l', 't', ';'] ∧
    escapeLabel ['>'] = ['&', 'g', 't', ';'] ∧
    escapeLabel ['\n'] = brChars :=
  ⟨hasUnescapedBracket_escape _, hasStrayAngle_escape _,
   escapeLabel_backslash, escapeLabel_lbrack, escapeLabel_rbrack,
   escapeLabel_lbrace, escapeLabel_rbrace, escapeLabel_lparen,
   escapeLabel_rparen, escapeLabel_lt, escapeLabel_gt, escapeLabel_newline⟩

/-- C3 counterexample: the single whitespace-free word `abcdef` with limit
3 is split at character level into two chunks, contradicting the claim
that a word longer than the limit is placed alone on its line unsplit. -/
theorem C3_counterexample :
    wrap_text_with_br "abcdef".toList 3 = "abc<br/>def".toList ∧
    wrap_text_with_br "abcdef".toList 3 ≠ "abcdef".toList := by
  constructor
  · decide
  · decide

/-- C3 (amended): for a positive limit, wrapping splits the text on
existing markers, keeps segments of length at most the limit whole, and
splits longer segments at character level into consecutive chunks — each
chunk non-empty, of length at most the limit, every chunk except the last
exactly the limit, and concatenating the chunks restores the segment;
there is no whitespace-based word wrapping. -/
theorem C3_wrap_policy_amended (s : Str) (k : Nat) (hk : 0 < k) :
    splitOnBr (wrap_text_with_br s k)
      = (splitOnBr s).flatMap
          (fun line => if k < line.length then chunks k line else [line]) ∧
    (∀ line : Str, (chunks k line).flatten = line) ∧
    (∀ line : Str, ∀ c ∈ chunks k line, c.length ≤ k ∧ c ≠ []) ∧
    (∀ line : Str, ∀ c ∈ (chunks k line).dropLast, c.length = k) :=
  ⟨splitOnBr_wrap s k hk,
   fun line => chunks_flatten k hk line,
   fun line c hc => ⟨(chunks_mem k hk line c hc).1, (chunks_mem k hk line c hc).2.1⟩,
   fun line => chunks_dropLast k hk line⟩

/-- C3 witness: the amended decomposition at a concrete input. -/
theorem C3_witness :
    splitOnBr (wrap_text_with_br "abcd ef".toList 3)
      = (splitOnBr "abcd ef".toList).flatMap
          (fun line => if 3 < line.length then chunks 3 line else [line]) :=
  (C3_wrap_policy_amended "abcd ef".toList 3 (by decide)).1

/-- C4: every graph node ends with a defined non-negative rank; every
isolated node and every node unreachable from a zero-in-degree node keeps
rank 0; when the BFS pops a node at rank r, newly enqueued successors are
enqueued at rank r + 1; stored ranks only grow along the run; and every
queued entry is a lower bound on the final rank of its node. -/
theorem C4_rank_invariants (nodes : List NodeIn) (edges : List EdgeIn) :
    (∀ v ∈ (buildGraph nodes edges).nodeIds,
      ∃ rk, (layoutRanks nodes edges).lookup v = some rk ∧ 0 ≤ rk) ∧
    (∀ v ∈ (buildGraph nodes edges).nodeIds,
      isolatedIn (buildGraph nodes edges) v →
        (layoutRanks nodes edges).lookup v = some 0) ∧
    (∀ v ∈ (buildGraph nodes edges).nodeIds,
      ¬ Reaches (buildGraph nodes edges) v →
        (layoutRanks nodes edges).lookup v = some 0) ∧
    (∀ (st : BfsState) (u : Str) (r : Int) (rest : List (Str × Int)),
      st.queue = (u, r) :: rest →
      ∃ new, (bfsStep (buildGraph nodes edges) st).queue = rest ++ new ∧
        ∀ e ∈ new, e.2 = r + 1 ∧ e.1 ∈ succsOf (buildGraph nodes edges) u
          ∧ ¬ e.1 ∈ st.visited) ∧
    (∀ (fuel : Nat) (st : BfsState) (x : Str),
      rankOf st.ranks x
        ≤ rankOf (bfsRun (buildGraph nodes edges) fuel st).ranks x) ∧
    (∀ (fuel : Nat) (st : BfsState),
      bfsMeasure (buildGraph nodes edges) st ≤ fuel →
      (∀ p ∈ st.queue, p.1 ∈ (buildGraph nodes edges).nodeIds) →
      st.ranks.map Prod.fst = (buildGraph nodes edges).nodeIds →
      ∀ p ∈ st.queue,
        p.2 ≤ rankOf (bfsRun (buildGraph nodes edges) fuel st).ranks p.1) := by
  have hwf := buildGraph_wf nodes edges
  refine ⟨layoutRanks_total nodes edges,
    layoutRanks_isolated nodes edges,
    layoutRanks_unreached nodes edges,
    ?_, ?_, ?_⟩
  · intro st u r rest hq
    exact bfsStep_enqueue (buildGraph nodes edges) st u r rest hq
  · intro fuel st x
    exact bfsRun_rank_mono (buildGraph nodes edges) fuel st x
  · intro fuel st hm h1 hkeys
    exact bfsRun_queue_bound (buildGraph nodes edges) hwf fuel st hm h1 hkeys

/-- C4 witness: the rank dictionary of Scenario A is total on the graph
nodes with a non-negative rank for node 1. -/
theorem C4_witness :
    ∃ rk, (layoutRanks scenarioNodes scenarioEdges).lookup ['1'] = some rk
      ∧ 0 ≤ rk :=
  (C4_rank_invariants scenarioNodes scenarioEdges).1 ['1'] (by decide)

/-- C5 counterexample: for a 20-character label with no pre-existing
line-break marker, the layout computes the dimensions from the raw label
(width 780, height 144), while the formulas over the wrapped label that
the claim asserts would give width 630 and height 192: the sizing pass
never wraps the label. -/
theorem C5_counterexample :
    (layout_graph longLabelNodes []).1.map NodeOut.calculated_width = [780] ∧
    (layout_graph longLabelNodes []).1.map NodeOut.calculated_height = [144] ∧
    (((((splitOnBr (wrap_text_with_br longLabel MAX_CHARS_PER_LINE)).map
          List.length).foldr max 0 : ℕ) : ℚ)
        * DEFAULT_CHAR_WIDTH_ESTIMATE + PADDING_WIDTH) * SAFETY_FACTOR_WIDTH
      = 630 ∧
    (((splitOnBr (wrap_text_with_br longLabel MAX_CHARS_PER_LINE)).length : ℚ)
        * DEFAULT_LINE_HEIGHT_ESTIMATE + PADDING_HEIGHT) * SAFETY_FACTOR_HEIGHT
      = 192 ∧
    (780 : ℚ) ≠ 630 ∧ (144 : ℚ) ≠ 192 := by
  have hwlist : (layout_graph longLabelNodes []).1.map NodeOut.calculated_width
      = [calcWidth longLabel] := rfl
  have hhlist : (layout_graph longLabelNodes []).1.map NodeOut.calculated_height
      = [calcHeight longLabel] := rfl
  refine ⟨?_, ?_, ?_, ?_, by norm_num, by norm_num⟩
  · rw [hwlist]
    simp only [List.cons.injEq, and_true]
    rw [calcWidth_eq,
      show (((splitOnBr longLabel).map List.length).foldr max 0 : ℕ) = 20 from by decide,
      show DEFAULT_CHAR_WIDTH_ESTIMATE = (25 : ℚ) from rfl,
      show PADDING_WIDTH = (150 : ℚ) from rfl,
      show SAFETY_FACTOR_WIDTH = (6 / 5 : ℚ) from rfl]
    norm_num
  · rw [hhlist]
    simp only [List.cons.injEq, and_true]
    unfold calcHeight
    rw [show (splitOnBr longLabel).length = 1 from by decide,
      show DEFAULT_LINE_HEIGHT_ESTIMATE = (40 : ℚ) from rfl,
      show PADDING_HEIGHT = (80 : ℚ) from rfl,
      show SAFETY_FACTOR_HEIGHT = (6 / 5 : ℚ) from rfl]
    norm_num
  · rw [show (((splitOnBr (wrap_text_with_br longLabel MAX_CHARS_PER_LINE)).map
          List.length).foldr max 0 : ℕ) = 15 from by decide,
      show DEFAULT_CHAR_WIDTH_ESTIMATE = (25 : ℚ) from rfl,
      show PADDING_WIDTH = (150 : ℚ) from rfl,
      show SAFETY_FACTOR_WIDTH = (6 / 5 : ℚ) from rfl]
    norm_num
  · rw [show (splitOnBr (wrap_text_with_br longLabel MAX_CHARS_PER_LINE)).length = 2
        from by decide,
      show DEFAULT_LINE_HEIGHT_ESTIMATE = (40 : ℚ) from rfl,
      show PADDING_HEIGHT = (80 : ℚ) from rfl,
      show SAFETY_FACTOR_HEIGHT = (6 / 5 : ℚ) from rfl]
    norm_num

/-- C5 (amended): after layout, the width of a node equals the maximum
line length times the character-width estimate plus the width padding,
all scaled by the width safety factor, and its height equals the line
count times the line-height estimate plus the height padding scaled by
the height safety factor, where maximum line length and line count are
taken over the lines of the RAW input label split on pre-existing
line-break markers — the layout sizing pass applies no wrapping, so for
labels with a segment longer than the limit these differ from the
wrapped-label formulas of the original claim; both dimensions are
positive. -/
theorem C5_node_sizing_amended (nodes : List NodeIn) (edges : List EdgeIn) :
    ∀ m ∈ (layout_graph nodes edges).1,
      m.calculated_width
        = (((((splitOnBr m.label).map List.length).foldr max 0 : ℕ) : ℚ)
            * DEFAULT_CHAR_WIDTH_ESTIMATE + PADDING_WIDTH) * SAFETY_FACTOR_WIDTH ∧
      m.calculated_height
        = (((splitOnBr m.label).length : ℚ) * DEFAULT_LINE_HEIGHT_ESTIMATE
            + PADDING_HEIGHT) * SAFETY_FACTOR_HEIGHT ∧
      0 < m.calculated_width ∧ 0 < m.calculated_height := by
  intro m hm
  obtain ⟨hw, hh⟩ := layout_graph_dims nodes edges m hm
  refine ⟨?_, ?_, ?_, ?_⟩
  · rw [hw]
    unfold calcWidth
    rw [textWidthOf_eq]
  · rw [hh]
    unfold calcHeight
    rfl
  · rw [hw]
    exact calcWidth_pos m.label
  · rw [hh]
    exact calcHeight_pos m.label

/-- C5 witness: the first Scenario A node has positive width. -/
theorem C5_witness :
    0 < ((layout_graph scenarioNodes scenarioEdges).1.head
      (by decide)).calculated_width :=
  (C5_node_sizing_amended scenarioNodes scenarioEdges _ (List.head_mem _)).2.2.1

/-- C6: whenever the externally obtained text fails the validity check,
the controller re-synthesizes from the same nodes and edges and returns
the internally generated text unconditionally; in every case the result is
either the external text or the internally generated one, so the fallback
is total. -/
theorem C6_fallback_behaviour (ext : Str) (nodes : List NodeIn)
    (edges : List EdgeIn) :
    (is_valid_mermaid ext = false →
      fallbackMermaid ext nodes edges = generate_mermaid_diagram nodes edges) ∧
    (fallbackMermaid ext nodes edges = ext ∨
      fallbackMermaid ext nodes edges = generate_mermaid_diagram nodes edges) := by
  unfold fallbackMermaid
  constructor
  · intro h
    rw [if_neg (by rw [h]; exact Bool.false_ne_true)]
  · by_cases h : is_valid_mermaid ext = true
    · rw [if_pos h]
      exact Or.inl rfl
    · rw [if_neg h]
      exact Or.inr rfl

/-- C6 witness: an empty external text is invalid, so the fallback returns
the internally generated diagram of Scenario A. -/
theorem C6_witness :
    fallbackMermaid [] scenarioNodes scenarioEdges
      = generate_mermaid_diagram scenarioNodes scenarioEdges :=
  (C6_fallback_behaviour [] scenarioNodes scenarioEdges).1 (by decide)

/-- C7: wrapping already-wrapped text with the same positive limit is a
no-op. -/
theorem C7_wrap_idempotent (s : Str) (k : Nat) (hk : 0 < k) :
    wrap_text_with_br (wrap_text_with_br s k) k = wrap_text_with_br s k :=
  wrap_idem s k hk

/-- C7 witness: idempotence at a concrete string and limit. -/
theorem C7_witness :
    wrap_text_with_br (wrap_text_with_br "abcdef ghij".toList 4) 4
      = wrap_text_with_br "abcdef ghij".toList 4 :=
  C7_wrap_idempotent "abcdef ghij".toList 4 (by decide)

/-- C8: on the Scenario A input, node 1 has rank 0 and node 2 rank 1, and
the synthesized text is exactly the header line, one rectangle line for
node 1, one diamond line for node 2, and the connector line from 1 to 2;
the header and connector are substrings of the output. -/
theorem C8_scenario_a :
    (layoutRanks scenarioNodes scenarioEdges).lookup ['1'] = some 0 ∧
    (layoutRanks scenarioNodes scenarioEdges).lookup ['2'] = some 1 ∧
    generate_mermaid_diagram scenarioNodes scenarioEdges
      = "graph TD\n".toList
        ++ ("    1".toList ++ ['[', '"'] ++ divOpen ++ "Start".toList
            ++ divClose ++ ['"', ']'] ++ ['\n'])
        ++ ("    2".toList ++ ['{', '"'] ++ divOpen ++ "Check Condition".toList
            ++ divClose ++ ['"', '}'] ++ ['\n'])
        ++ ("    1 --> 2\n".toList) ∧
    containsSeq "graph TD".toList
      (generate_mermaid_diagram scenarioNodes scenarioEdges) = true ∧
    containsSeq "    1 --> 2\n".toList
      (generate_mermaid_diagram scenarioNodes scenarioEdges) = true := by
  refine ⟨by decide, by decide, by decide, by decide, by decide⟩

/-- C9 counterexample: with two node dictionaries sharing the identifier 1
and a dangling edge, the layout assigns a position only to the first
dictionary, so not every node in the list receives a position. -/
theorem C9_counterexample :
    ((layout_graph dupNodes danglingEdges).1.map fun m => m.position.isSome)
      = [true, false] := by decide

/-- C9 (amended): for inputs whose node identifiers are distinct, even
when an edge references an identifier absent from the node list the layout
is total: every node in the list has a rank recorded under its identifier
and receives a position, while identifiers absent from the node list get
no position entry (the update is silently skipped); with duplicate
identifiers only the first dictionary per identifier is positioned. -/
theorem C9_dangling_amended (nodes : List NodeIn) (edges : List EdgeIn)
    (_hdangle : ∃ e ∈ edges, ¬ e.source ∈ nodes.map NodeIn.id
      ∨ ¬ e.target ∈ nodes.map NodeIn.id)
    (hnd : (nodes.map NodeIn.id).Nodup) :
    (∀ m ∈ (layout_graph nodes edges).1,
      (∃ rk, (layoutRanks nodes edges).lookup m.id = some rk) ∧
      m.position.isSome = true) ∧
    (∀ v, ¬ v ∈ nodes.map NodeIn.id →
      (positionEntries (nodes.map withDims) (layoutRanks nodes edges)).lookup v
        = none) := by
  constructor
  · intro m hm
    constructor
    · have hm2 : m ∈ attachPositions
          (positionEntries (nodes.map withDims) (layoutRanks nodes edges)) []
          (nodes.map withDims) := hm
      obtain ⟨n0, hn0, hid, _, _, _⟩ :=
        attachPositions_fields _ (nodes.map withDims) [] m hm2
      rw [List.mem_map] at hn0
      obtain ⟨n, hn, hwd⟩ := hn0
      have hidn : m.id = n.id := by rw [hid, ← hwd]; rfl
      obtain ⟨rk, hrk, _⟩ := layoutRanks_total nodes edges n.id
        (node_id_mem_buildGraph nodes edges n hn)
      exact ⟨rk, by rw [hidn]; exact hrk⟩
    · exact layout_graph_positions nodes edges hnd m hm
  · intro v hv
    exact layout_positionEntries_skip nodes edges v hv

/-- C9 witness: a single node with a dangling edge still receives a
position. -/
theorem C9_witness :
    ((layout_graph [{ id := ['1'], label := ['A'], shape := none }]
      danglingEdges).1.head (by decide)).position.isSome = true :=
  ((C9_dangling_amended [{ id := ['1'], label := ['A'], shape := none }]
    danglingEdges
    ⟨{ source := ['1'], target := ['z'] }, by decide, Or.inr (by decide)⟩
    (by decide)).1 _ (List.head_mem _)).2

/-- C10: for every text and positive limit, every marker-separated segment
of the wrapped text has length at most the limit, with no exception for
long single words. -/
theorem C10_segment_bound (s : Str) (k : Nat) (hk : 1 ≤ k) :
    ∀ seg ∈ splitOnBr (wrap_text_with_br s k), seg.length ≤ k :=
  wrap_seg_le s k hk

/-- C10 witness: the bound at a concrete long single word. -/
theorem C10_witness : ("abc".toList).length ≤ 3 :=
  C10_segment_bound "abcdefgh".toList 3 (by decide) "abc".toList (by decide)
